import Mathlib

/-!
Verification of `torch/_prims/executor.py`: the argument canonicalizer and
adapter built by `make_traced._traced`, the executor dispatcher `execute`,
and the prototype nvfuser (fusion) executor.

Python scalars (`Number`) are modelled as integers: no claim depends on
scalar arithmetic, scalars are only moved around and compared, so the
float literal `2.0` of the spec scenario is rendered as the scalar `2`.
-/

deriving instance DecidableEq for Except

namespace TorchPrimsExecutor

/-- Concrete tensor metadata: `arg.size()`, `arg.stride()`, `arg.dtype`
(dtypes are an enumeration, modelled as `Nat`). -/
structure TensorData where
  shape : List Nat
  stride : List Nat
  dtype : Nat
deriving DecidableEq

/-- A concrete Python value handled by the executor: a `torch.Tensor`, a
scalar `Number`, or some other object (neither tensor nor number). -/
inductive Value where
  | tensor (t : TensorData) : Value
  | scalar (x : Int) : Value
  | misc (n : Nat) : Value
deriving DecidableEq

/-- `isinstance(arg, torch.Tensor)`. -/
def Value.isTensor : Value → Bool
  | .tensor _ => true
  | _ => false

/-- `isinstance(arg, Number)`. -/
def Value.isNumber : Value → Bool
  | .scalar _ => true
  | _ => false

/-! ## Python dictionaries

A Python `dict` preserves insertion order; assigning to an existing key
updates it in place, assigning to a fresh key appends it.  Modelled as an
association list. -/

/-- An insertion-ordered Python dictionary with `String` keys. -/
abbrev Dict (α : Type) : Type := List (String × α)

/-- `k in d` for a Python dict. -/
def dictContains {α : Type} (d : Dict α) (k : String) : Bool :=
  (d : List (String × α)).any (fun p => p.1 == k)

/-- `d[k]` lookup, `none` when absent. -/
def dictLookup {α : Type} (d : Dict α) (k : String) : Option α :=
  ((d : List (String × α)).find? (fun p => p.1 == k)).map (fun p => p.2)

/-- `d[k] = v`: update in place when `k` is present, else append. -/
def dictInsert {α : Type} (d : Dict α) (k : String) (v : α) : Dict α :=
  if dictContains d k then
    (d : List (String × α)).map (fun p => if p.1 == k then (k, v) else p)
  else (d : List (String × α)) ++ [(k, v)]

/-- `dict(pairs)`: build a dict by inserting the pairs left to right. -/
def dictOfPairs {α : Type} (l : List (String × α)) : Dict α :=
  l.foldl (fun d p => dictInsert d p.1 p.2) []

/-- `list(d.keys())`. -/
def dictKeys {α : Type} (d : Dict α) : List String :=
  (d : List (String × α)).map Prod.fst

/-- `list(d.values())`. -/
def dictValues {α : Type} (d : Dict α) : List α :=
  (d : List (String × α)).map Prod.snd

/-! ## Argument canonicalizer (`make_traced._traced`)

`_traced(*args, executor="aten", **kwargs)` copies `kwargs` into
`fn_kwargs`, walks `inspect.signature(fn_unwrapped).parameters` in
declaration order and, for each parameter not already satisfied
positionally, fills in its declared default when the caller did not pass
it by keyword; `all_args = list(args) + list(fn_kwargs.values())`. -/

/-- One declared parameter of the traced function: its name and, when
`param.default is not param.empty`, its default value. -/
structure Param where
  name : String
  dflt : Option Value
deriving DecidableEq

/-- The `fn_kwargs = {}; for k, v in kwargs.items(): fn_kwargs[k] = v` copy
loop of `_traced`. -/
def copyKwargs (kwargs : Dict Value) : Dict Value :=
  (kwargs : List (String × Value)).foldl (fun d p => dictInsert d p.1 p.2) []

/-- The `for i, (name, param) in enumerate(sig.parameters.items())` loop of
`_traced`: parameters before index `nargs` are already set positionally;
for the rest, a declared default is inserted when the name is not yet in
`fn_kwargs`.  `i` is the index of the first parameter of `params`. -/
def populateDefaults (params : List Param) (i nargs : Nat) (d : Dict Value) : Dict Value :=
  match params with
  | [] => d
  | p :: rest =>
    if i < nargs then populateDefaults rest (i + 1) nargs d
    else
      match p.dflt with
      | some v =>
        if dictContains d p.name then populateDefaults rest (i + 1) nargs d
        else populateDefaults rest (i + 1) nargs (dictInsert d p.name v)
      | none => populateDefaults rest (i + 1) nargs d

/-- The merged keyword mapping `fn_kwargs` after the defaults loop. -/
def mergedKwargs (params : List Param) (nargs : Nat) (kwargs : Dict Value) : Dict Value :=
  populateDefaults params 0 nargs (copyKwargs kwargs)

/-- `all_args = list(args) + list(fn_kwargs.values())`: the canonical flat
argument list of `_traced`. -/
def allArgs (params : List Param) (args : List Value) (kwargs : Dict Value) : List Value :=
  args ++ dictValues (mergedKwargs params args.length kwargs)

/-- The split performed by the adapter `wrapped(*args)`:
`fn_args = args[:nargs]` and
`kwargs = dict(zip(list(fn_kwargs.keys()), args[nargs:]))`. -/
def wrappedSplit (params : List Param) (args : List Value) (kwargs : Dict Value)
    (flat : List Value) : List Value × Dict Value :=
  (flat.take args.length,
   dictOfPairs (List.zip (dictKeys (mergedKwargs params args.length kwargs))
     (flat.drop args.length)))

/-- The adapter itself: `wrapped` re-splits the flat list and calls `fn`
with the reconstructed positional and keyword arguments. -/
def wrappedCall {R : Type} (fn : List Value → Dict Value → R) (params : List Param)
    (args : List Value) (kwargs : Dict Value) (flat : List Value) : R :=
  let s := wrappedSplit params args kwargs flat
  fn s.1 s.2

/-- Modelled from the spec: the claimed canonical list, read literally —
the positional arguments followed by one value for each remaining declared
parameter in declaration order, the caller's keyword value when supplied
and the declared default otherwise.  Used only to compare the claim's
wording with the source's `allArgs`. -/
def specCanonicalArgs (params : List Param) (args : List Value) (kwargs : Dict Value) :
    List Value :=
  args ++ (params.drop args.length).filterMap (fun p =>
    match dictLookup kwargs p.name with
    | some v => some v
    | none => p.dflt)

/-- Modelled from the spec: the names of the parameters passed by keyword,
listed in declaration order — the key order the claim says the adapter
re-zips against the trailing flat entries. -/
def specKeywordNames (params : List Param) (nargs : Nat) (kwargs : Dict Value) :
    List String :=
  ((params.drop nargs).filter (fun p => dictContains kwargs p.name || p.dflt.isSome)).map
    (fun p => p.name)

/-- Modelled from the spec: the adapter split as the claim words it,
re-zipping the declaration-ordered keyword parameter names against the
trailing entries of the flat list. -/
def specAdapterSplit (params : List Param) (args : List Value) (kwargs : Dict Value)
    (flat : List Value) : List Value × Dict Value :=
  (flat.take args.length,
   dictOfPairs (List.zip (specKeywordNames params args.length kwargs)
     (flat.drop args.length)))

/-- The trailing default entries that the defaults loop appends: one entry
per declared parameter at index `≥ nargs` that has a default and whose
name is not among `keys` (the caller's keyword names). -/
def defaultsTail (params : List Param) (i nargs : Nat) (keys : List String) :
    List (String × Value) :=
  match params with
  | [] => []
  | p :: rest =>
    (if i < nargs then []
     else
       match p.dflt with
       | some v => if keys.any (fun s => s == p.name) then [] else [(p.name, v)]
       | none => []) ++ defaultsTail rest (i + 1) nargs keys

/-! ## Operation graphs

The `torch.fx` graph produced by `make_fx`: placeholder nodes (one per
flat argument, in order, carrying the parameter name), `call_function`
nodes in recorded order, and one output node holding a possibly nested
structure of references.  The traced functions supported here pass node
arguments positionally (`make_traced` documents "operations with
positional args"). -/

/-- A nested Python structure (tuples/lists) of leaves, as handled by
`torch.utils._pytree`.  Tuples are rendered as right-nested `cons` chains
ending in `nil`. -/
inductive PyTree (α : Type) where
  | leaf (a : α) : PyTree α
  | nil : PyTree α
  | cons (hd tl : PyTree α) : PyTree α
deriving DecidableEq

/-- `tree_flatten`: the ordered leaves and the structure spec. -/
def treeFlatten {α : Type} : PyTree α → List α × PyTree Unit
  | .leaf a => ([a], .leaf ())
  | .nil => ([], .nil)
  | .cons x y =>
    let fx := treeFlatten x
    let fy := treeFlatten y
    (fx.1 ++ fy.1, .cons fx.2 fy.2)

/-- Helper for `tree_unflatten`: rebuild a tree with the given structure
from a prefix of `leaves`, returning the remaining leaves. -/
def unflattenAux {α : Type} (fallback : α) : PyTree Unit → List α → PyTree α × List α
  | .leaf _, v :: rest => (.leaf v, rest)
  | .leaf _, [] => (.leaf fallback, [])
  | .nil, leaves => (.nil, leaves)
  | .cons x y, leaves =>
    let ux := unflattenAux fallback x leaves
    let uy := unflattenAux fallback y ux.2
    (.cons ux.1 uy.1, uy.2)

/-- `tree_unflatten(leaves, spec)`. -/
def treeUnflatten {α : Type} (fallback : α) (leaves : List α) (spec : PyTree Unit) :
    PyTree α :=
  (unflattenAux fallback spec leaves).1

/-- An argument of a graph node: a reference to an earlier node (the flat
environment lists placeholder values first, then each `call_function`
result in order) or a literal constant baked into the graph. -/
inductive Expr where
  | ref (i : Nat) : Expr
  | lit (v : Value) : Expr
deriving DecidableEq

/-- An operation target: its printable name, its direct (ATen)
implementation, and whether a fusion lowering rule (`impl_nvfuser`) is
registered for it.  The rule table itself lives outside this file's
source, so a rule is modelled by its presence (see `lowerRule`). -/
structure OpDef where
  name : String
  implAten : List Value → Value
  implNv : Bool

/-- A `call_function` node of the graph. -/
structure GNode where
  target : OpDef
  args : List Expr

/-- A traced graph module. -/
structure Graph where
  inputNames : List String
  nodes : List GNode
  output : PyTree Expr

/-! ## Errors

The spec's error taxonomy, mapped onto the exceptions the code raises:
`BackendUnavailableError` is the `RuntimeError` raised when CUDA is
absent, `InvalidExecutorError` is the `ValueError` carrying the executor
name and the valid names, `LoweringError` covers a missing `impl_nvfuser`
rule and an invalid fusion output. -/

inductive Err where
  | backendUnavailable : Err
  | invalidExecutor (name : String) (valid : List String) : Err
  | loweringNoRule (op : String) : Err
  | loweringBadOutput : Err
  | badReference : Err
  | missingArg (name : String) : Err
deriving DecidableEq

/-! ## The fusion-backend definition scope

The nvfuser branch of `execute` acquires `Fusion()` and enters a
`FusionDefinition` scope; every interaction with the backend inside it is
recorded as an event so that registration order, scope acquisition and the
final compile-and-execute call are observable. -/

/-- One observable interaction with the fusion backend. -/
inductive FEvent where
  | enterScope : FEvent
  | defineTensor (shape stride : List Nat) (dtype : Nat) : FEvent
  | defineConstant (x : Int) : FEvent
  | addInput (h : Nat) : FEvent
  | lowerOp (op : String) : FEvent
  | addOutput (h : Nat) : FEvent
  | backendExec (bufs : List Value) : FEvent
  | exitScope : FEvent
deriving DecidableEq

/-- The backend definition state: a fresh-handle counter and the trace of
events so far. -/
structure FState where
  nextHandle : Nat
  trace : List FEvent
deriving DecidableEq

/-- A computation against the backend: it may fail with an exception and
always yields the updated backend state. -/
def FusionM (α : Type) : Type := FState → Except Err α × FState

/-- Lift a pure value. -/
def pureF {α : Type} (a : α) : FusionM α := fun s => (Except.ok a, s)

/-- Sequencing: an exception short-circuits but keeps the state reached so
far (a raised Python exception does not undo prior backend calls). -/
def bindF {α β : Type} (m : FusionM α) (k : α → FusionM β) : FusionM β := fun s =>
  match m s with
  | (Except.ok a, s1) => k a s1
  | (Except.error e, s1) => (Except.error e, s1)

/-- Raise an exception. -/
def throwF {α : Type} (e : Err) : FusionM α := fun s => (Except.error e, s)

/-- Run an `Except` computation that does not touch the backend. -/
def liftE {α : Type} (r : Except Err α) : FusionM α := fun s => (r, s)

/-- `map` over a list inside `FusionM` (the `tuple(map(f, args))` /
`tree_map` pattern; the call arguments here are flat, so `tree_map` is a
map over the argument leaves). -/
def mapF {α β : Type} (f : α → FusionM β) : List α → FusionM (List β)
  | [] => pureF []
  | a :: rest => bindF (f a) (fun b => bindF (mapF f rest) (fun bs => pureF (b :: bs)))

/-- Iterate an action over a list (the `for o in flat_out:` loop). -/
def forF {α : Type} (f : α → FusionM Unit) : List α → FusionM Unit
  | [] => pureF ()
  | a :: rest => bindF (f a) (fun _ => forF f rest)

/-- Modelled from the spec: `fd.define_tensor(shape, stride, dtype)` of
the backend surface (the `torch._C._nvfuser` binding is not part of this
source) — registers a tensor placeholder and returns a fresh handle. -/
def defineTensorF (shape stride : List Nat) (dtype : Nat) : FusionM Nat := fun s =>
  (Except.ok s.nextHandle,
   { nextHandle := s.nextHandle + 1,
     trace := s.trace ++ [FEvent.defineTensor shape stride dtype] })

/-- Modelled from the spec: `fd.define_constant(value)` of the backend
surface — translates a scalar to a backend constant handle. -/
def defineConstantF (x : Int) : FusionM Nat := fun s =>
  (Except.ok s.nextHandle,
   { nextHandle := s.nextHandle + 1, trace := s.trace ++ [FEvent.defineConstant x] })

/-- Modelled from the spec: `fd.add_input(handle)` of the backend surface
— marks a defined tensor as a declared input of the program. -/
def addInputF (h : Nat) : FusionM Unit := fun s =>
  (Except.ok (), { s with trace := s.trace ++ [FEvent.addInput h] })

/-- A value flowing through the fusion interpreter: a backend tensor
handle, a backend constant handle, or a raw concrete value passed
through unchanged. -/
inductive NvVal where
  | tHandle (h : Nat) : NvVal
  | cHandle (h : Nat) : NvVal
  | val (v : Value) : NvVal
deriving DecidableEq

/-- Whether an interpreter value is a backend tensor handle. -/
def NvVal.isTHandle : NvVal → Bool
  | .tHandle _ => true
  | _ => false

/-! `getnvFuserDtype` (defined in `torch/_prims/utils`, outside this
source) translates a torch dtype to the backend's dtype enumeration; it is
kept abstract as a parameter `nvD` below. -/

/-- `to_nv`: a tensor argument is registered as a backend input carrying
its size, stride and translated dtype; every other value passes through
unchanged. -/
def to_nv (nvD : Nat → Nat) (arg : Value) : FusionM NvVal :=
  match arg with
  | Value.tensor t =>
    bindF (defineTensorF t.shape t.stride (nvD t.dtype)) (fun x =>
      bindF (addInputF x) (fun _ => pureF (NvVal.tHandle x)))
  | v => pureF (NvVal.val v)

/-- `_to_nvfuser_constant`: a scalar `Number` is translated to a backend
constant handle; anything else passes through. -/
def _to_nvfuser_constant (arg : NvVal) : FusionM NvVal :=
  match arg with
  | NvVal.val (Value.scalar x) =>
    bindF (defineConstantF x) (fun h => pureF (NvVal.cHandle h))
  | v => pureF v

/-- Modelled from the spec: invoking an operation's registered fusion
lowering rule `target.impl_nvfuser(fd, *args)` (the rules live in
`torch/_prims`, outside this source) — the backend context is prepended
and the rule yields a new backend tensor handle. -/
def lowerRule (op : String) (_args : List NvVal) : FusionM NvVal := fun s =>
  (Except.ok (NvVal.tHandle s.nextHandle),
   { nextHandle := s.nextHandle + 1, trace := s.trace ++ [FEvent.lowerOp op] })

/-- `FusionInterpreter.call_function`: positional arguments are first
mapped through `_to_nvfuser_constant`, then `target.impl_nvfuser` is
looked up (failing with a `LoweringError` naming the operation when no
rule is registered) and invoked with the definition context prepended. -/
def callFunction (target : OpDef) (args : List NvVal) : FusionM NvVal :=
  bindF (mapF _to_nvfuser_constant args) (fun cargs =>
    if target.implNv then lowerRule target.name cargs
    else throwF (Err.loweringNoRule target.name))

/-- Resolve one node argument against the interpreter environment. -/
def resolveNv (env : List NvVal) : Expr → FusionM NvVal
  | Expr.ref i =>
    match env.get? i with
    | some v => pureF v
    | none => throwF Err.badReference
  | Expr.lit v => pureF (NvVal.val v)

/-- Run the graph's `call_function` nodes in recorded order, extending the
environment with each node's result. -/
def interpretNodes (nodes : List GNode) (env : List NvVal) : FusionM (List NvVal) :=
  match nodes with
  | [] => pureF env
  | n :: rest =>
    bindF (mapF (resolveNv env) n.args) (fun vs =>
      bindF (callFunction n.target vs) (fun r => interpretNodes rest (env ++ [r])))

/-- Resolve the output node's nested structure against the environment. -/
def resolveOutTree (env : List NvVal) : PyTree Expr → FusionM (PyTree NvVal)
  | PyTree.leaf e => bindF (resolveNv env e) (fun v => pureF (PyTree.leaf v))
  | PyTree.nil => pureF PyTree.nil
  | PyTree.cons x y =>
    bindF (resolveOutTree env x) (fun a =>
      bindF (resolveOutTree env y) (fun b => pureF (PyTree.cons a b)))

/-- Modelled from the spec: binding the graph module's placeholders to the
call's flat arguments — positionally in order, falling back to the
keyword argument of the same name, failing when a placeholder is left
unbound.  (`fx` machinery, outside this source.)  `i` is the index of the
first placeholder of `names`. -/
def bindPlaceholders {α : Type} (names : List String) (i : Nat) (args : List α)
    (kwargs : List (String × α)) : Except Err (List α) :=
  match names with
  | [] => Except.ok []
  | nm :: rest =>
    let v? :=
      match args.get? i with
      | some v => some v
      | none => (kwargs.find? (fun p => p.1 == nm)).map (fun p => p.2)
    match v? with
    | some v => (bindPlaceholders rest (i + 1) args kwargs).map (fun vs => v :: vs)
    | none => Except.error (Err.missingArg nm)

/-- The definition-and-lowering stage of the nvfuser branch: register the
call arguments (`nv_args = tree_map(to_nv, args)`, then
`nv_kwargs = tree_map(to_nv, kwargs)`), run the `FusionInterpreter`, and
flatten the output structure (`flat_out, unflatten_spec =
tree_flatten(out)`). -/
def lowerStage (nvD : Nat → Nat) (g : Graph) (args : List Value) (kwargs : Dict Value) :
    FusionM (List NvVal × PyTree Unit) :=
  bindF (mapF (to_nv nvD) args) (fun nvArgs =>
    bindF (mapF (fun p => bindF (to_nv nvD p.2) (fun v => pureF (p.1, v))) kwargs)
      (fun nvKwargs =>
        bindF (liftE (bindPlaceholders g.inputNames 0 nvArgs nvKwargs)) (fun env0 =>
          bindF (interpretNodes g.nodes env0) (fun env =>
            bindF (resolveOutTree env g.output) (fun out => pureF (treeFlatten out))))))

/-- Modelled from the spec: `fd.add_output(o)` of the backend surface —
registers a tensor leaf as a backend output; a non-tensor leaf is not a
valid fusion output and fails with a `LoweringError`. -/
def add_output (v : NvVal) : FusionM Unit :=
  match v with
  | NvVal.tHandle h => fun s =>
    (Except.ok (), { s with trace := s.trace ++ [FEvent.addOutput h] })
  | _ => throwF Err.loweringBadOutput

/-- Modelled from the spec: `fusion.execute(inputs)` of the backend
surface — the single compile-and-execute round trip, returning one output
buffer per registered output. -/
def fusionExecute (bufs : List Value) (nOut : Nat) : FusionM (List Value) := fun s =>
  (Except.ok ((List.range nOut).map Value.misc),
   { s with trace := s.trace ++ [FEvent.backendExec bufs] })

/-- The body of the `with FusionDefinition(fusion) as fd:` block: lower
the graph, register every flattened output leaf, run the backend on the
tensor-valued positional arguments
(`tuple(arg for arg in args if isinstance(arg, torch.Tensor))`), and
un-flatten the returned buffers with the captured spec. -/
def nvfuserPath (nvD : Nat → Nat) (g : Graph) (args : List Value) (kwargs : Dict Value) :
    FusionM (PyTree Value) :=
  bindF (lowerStage nvD g args kwargs) (fun fo =>
    bindF (forF add_output fo.1) (fun _ =>
      bindF (fusionExecute (args.filter Value.isTensor) fo.1.length) (fun res =>
        pureF (treeUnflatten (Value.misc 0) res fo.2))))

/-- The `with FusionDefinition(fusion) as fd:` scope: entered before the
body runs and exited on every path out of the body, normal or failing,
before the result or exception propagates. -/
def withFusionDefinition {α : Type} (body : FusionM α) : FusionM α := fun s =>
  let r := body { s with trace := s.trace ++ [FEvent.enterScope] }
  (r.1, { r.2 with trace := r.2.trace ++ [FEvent.exitScope] })

/-- The whole nvfuser branch of `execute` (after the CUDA check), run from
a fresh backend state. -/
def runNvfuser (nvD : Nat → Nat) (g : Graph) (args : List Value) (kwargs : Dict Value) :
    Except Err (PyTree Value) × List FEvent :=
  let r := withFusionDefinition (nvfuserPath nvD g args kwargs) ⟨0, []⟩
  (r.1, r.2.trace)

/-! ## The direct (ATen) executor: `gm.forward(*args, **kwargs)` -/

/-- Resolve one node argument against the concrete environment. -/
def resolveV (env : List Value) : Expr → Except Err Value
  | Expr.ref i =>
    match env.get? i with
    | some v => Except.ok v
    | none => Except.error Err.badReference
  | Expr.lit v => Except.ok v

/-- Replay the recorded nodes directly against concrete values. -/
def evalNodes (nodes : List GNode) (env : List Value) : Except Err (List Value) :=
  match nodes with
  | [] => Except.ok env
  | n :: rest =>
    match n.args.mapM (resolveV env) with
    | Except.ok vs => evalNodes rest (env ++ [n.target.implAten vs])
    | Except.error e => Except.error e

/-- Resolve the output structure against the concrete environment. -/
def resolveTreeV (env : List Value) : PyTree Expr → Except Err (PyTree Value)
  | PyTree.leaf e => (resolveV env e).map PyTree.leaf
  | PyTree.nil => Except.ok PyTree.nil
  | PyTree.cons x y =>
    match resolveTreeV env x, resolveTreeV env y with
    | Except.ok a, Except.ok b => Except.ok (PyTree.cons a b)
    | Except.error e, _ => Except.error e
    | _, Except.error e => Except.error e

/-- `gm.forward(*args, **kwargs)`: the direct replay of the graph. -/
def forward (g : Graph) (args : List Value) (kwargs : Dict Value) :
    Except Err (PyTree Value) :=
  match bindPlaceholders g.inputNames 0 args kwargs with
  | Except.ok env0 =>
    match evalNodes g.nodes env0 with
    | Except.ok env => resolveTreeV env g.output
    | Except.error e => Except.error e
  | Except.error e => Except.error e

/-! ## The executor dispatcher -/

/-- `execute(gm, *args, executor, **kwargs)`: dispatch on the executor
name — `"aten"` replays the graph directly, `"nvfuser"` first checks
`torch.cuda.is_available()` (modelled by `cuda`) and then runs the fusion
path, and any other name raises a `ValueError` carrying the name and the
allowed values.  The result is paired with the trace of backend events
(empty when the fusion backend is never touched). -/
def execute (cuda : Bool) (nvD : Nat → Nat) (gm : Graph) (args : List Value)
    (executor : String) (kwargs : Dict Value) : Except Err (PyTree Value) × List FEvent :=
  if executor = "aten" then (forward gm args kwargs, [])
  else if executor = "nvfuser" then
    if !cuda then (Except.error Err.backendUnavailable, [])
    else runNvfuser nvD gm args kwargs
  else (Except.error (Err.invalidExecutor executor ["aten", "nvfuser"]), [])

/-! ## Trace observations and expected-trace helpers -/

/-- The tensor descriptor registered by a `define_tensor` event. -/
def defTensorOf : FEvent → Option (List Nat × List Nat × Nat)
  | FEvent.defineTensor sh st d => some (sh, st, d)
  | _ => none

/-- Whether an event is an `add_input` registration. -/
def isAddInputEv : FEvent → Bool
  | FEvent.addInput _ => true
  | _ => false

/-- The buffers supplied by a `backendExec` event. -/
def execBufsOf : FEvent → Option (List Value)
  | FEvent.backendExec bufs => some bufs
  | _ => none

/-- The `define_tensor` event that registering a tensor value emits. -/
def descEvent (nvD : Nat → Nat) (v : Value) : FEvent :=
  match v with
  | Value.tensor t => FEvent.defineTensor t.shape t.stride (nvD t.dtype)
  | _ => FEvent.defineConstant 0

/-- The events emitted by registering a list of concrete arguments with
`to_nv`, starting from fresh handle `h0`. -/
def regDelta (nvD : Nat → Nat) (h0 : Nat) : List Value → List FEvent
  | [] => []
  | Value.tensor t :: rest =>
    FEvent.defineTensor t.shape t.stride (nvD t.dtype) :: FEvent.addInput h0 ::
      regDelta nvD (h0 + 1) rest
  | _ :: rest => regDelta nvD h0 rest

/-- The interpreter values produced by registering a list of concrete
arguments with `to_nv`, starting from fresh handle `h0`. -/
def regHandles (h0 : Nat) : List Value → List NvVal
  | [] => []
  | Value.tensor _ :: rest => NvVal.tHandle h0 :: regHandles (h0 + 1) rest
  | v :: rest => NvVal.val v :: regHandles h0 rest

/-- The events emitted by mapping interpreter values through
`_to_nvfuser_constant`, starting from fresh handle `h0`. -/
def constDelta (h0 : Nat) : List NvVal → List FEvent
  | [] => []
  | NvVal.val (Value.scalar x) :: rest =>
    FEvent.defineConstant x :: constDelta (h0 + 1) rest
  | _ :: rest => constDelta h0 rest

/-- The interpreter values produced by `_to_nvfuser_constant`, starting
from fresh handle `h0`. -/
def constOut (h0 : Nat) : List NvVal → List NvVal
  | [] => []
  | NvVal.val (Value.scalar _) :: rest => NvVal.cHandle h0 :: constOut (h0 + 1) rest
  | v :: rest => v :: constOut h0 rest

/-- The number of scalars among interpreter values. -/
def scalarCount (l : List NvVal) : Nat :=
  (l.filter (fun v =>
    match v with
    | NvVal.val (Value.scalar _) => true
    | _ => false)).length

/-- The tensor descriptor that registering a value as a fusion input
carries: present exactly for tensors, with the dtype translated. -/
def descOf (nvD : Nat → Nat) : Value → Option (List Nat × List Nat × Nat)
  | Value.tensor t => some (t.shape, t.stride, nvD t.dtype)
  | _ => none

/-- The keyword pairs produced by registering keyword arguments with
`to_nv`, starting from fresh handle `h0`. -/
def regKwHandles (h0 : Nat) : List (String × Value) → List (String × NvVal)
  | [] => []
  | (k, Value.tensor _) :: rest => (k, NvVal.tHandle h0) :: regKwHandles (h0 + 1) rest
  | (k, v) :: rest => (k, NvVal.val v) :: regKwHandles h0 rest

/-- Events that may occur strictly inside the definition scope and are not
the backend compile-and-execute call. -/
def DefinitionEv : FEvent → Prop
  | FEvent.enterScope => False
  | FEvent.exitScope => False
  | FEvent.backendExec _ => False
  | _ => True

/-- Events other than entering or leaving the definition scope. -/
def BodyEv : FEvent → Prop
  | FEvent.enterScope => False
  | FEvent.exitScope => False
  | _ => True

/-- Events other than the backend compile-and-execute call. -/
def NonExecEv : FEvent → Prop
  | FEvent.backendExec _ => False
  | _ => True

/-- Events other than input registration (`define_tensor` / `add_input`). -/
def NonRegEv : FEvent → Prop
  | FEvent.defineTensor _ _ _ => False
  | FEvent.addInput _ => False
  | _ => True

/-- Events emitted while interpreting graph nodes: constant definitions
and lowering-rule invocations. -/
def InterpEv : FEvent → Prop
  | FEvent.defineConstant _ => True
  | FEvent.lowerOp _ => True
  | _ => False

/-- Events emitted while registering outputs. -/
def OutputEv : FEvent → Prop
  | FEvent.addOutput _ => True
  | _ => False

/-- `EmitsOnly m p`: running `m` from any state only appends events
satisfying `p` to the trace. -/
def EmitsOnly {α : Type} (m : FusionM α) (p : FEvent → Prop) : Prop :=
  ∀ s : FState, ∃ δ : List FEvent,
    ((m s).2).trace = s.trace ++ δ ∧ ∀ e ∈ δ, p e

/-- Whether every reference of an expression points below bound `k`. -/
def exprBoundB (k : Nat) : Expr → Bool
  | Expr.ref i => decide (i < k)
  | Expr.lit _ => true

/-- Whether every node argument of the nodes (starting at position `i`)
references only placeholders or strictly earlier nodes, with `base`
placeholders. -/
def nodesBoundB (base i : Nat) : List GNode → Bool
  | [] => true
  | n :: rest => n.args.all (exprBoundB (base + i)) && nodesBoundB base (i + 1) rest

/-- Whether every node argument of the graph references only placeholders
or strictly earlier nodes (the §3 no-forward-reference invariant). -/
def nodesWFB (g : Graph) : Bool :=
  nodesBoundB g.inputNames.length 0 g.nodes

/-! ## Concrete instances used by counterexamples and witnesses -/

/-- A sample tensor. -/
def tenA : TensorData := ⟨[2], [1], 0⟩

/-- A second sample tensor, distinguishable from `tenA`. -/
def tenB : TensorData := ⟨[3], [1], 7⟩

/-- An operation with both a direct implementation and a fusion rule
(standing for `prims.mul`). -/
def mulOp : OpDef := ⟨"mul", fun _ => Value.scalar 0, true⟩

/-- An operation with a direct implementation but no fusion rule. -/
def noRuleOp : OpDef := ⟨"weird_op", fun _ => Value.scalar 0, false⟩

/-- The parameters of the spec scenario `g(a, c=2.0)`. -/
def gParams : List Param := [⟨"a", none⟩, ⟨"c", some (Value.scalar 2)⟩]

/-- Parameters `f(a, b=1.0, c=2.0)` used by the order counterexamples. -/
def cxParams : List Param :=
  [⟨"a", none⟩, ⟨"b", some (Value.scalar 1)⟩, ⟨"c", some (Value.scalar 2)⟩]

/-- Positional arguments of the order counterexamples. -/
def cxArgs : List Value := [Value.scalar 10]

/-- Keyword arguments of the order counterexamples, supplied in the
opposite of declaration order: `f(10, c=5.0, b=6.0)`. -/
def cxKwargs : Dict Value := [("c", Value.scalar 5), ("b", Value.scalar 6)]

/-- A graph that forwards its first placeholder: traced identity. -/
def fwdGraph : Graph :=
  { inputNames := ["x", "k"], nodes := [], output := PyTree.leaf (Expr.ref 0) }

/-- The traced graph of `g(a, c) = a * c`: two placeholders and one
multiplication node. -/
def mulGraph : Graph :=
  { inputNames := ["a", "c"],
    nodes := [⟨mulOp, [Expr.ref 0, Expr.ref 1]⟩],
    output := PyTree.leaf (Expr.ref 2) }

/-- A graph whose single node has no fusion rule. -/
def noRuleGraph : Graph :=
  { inputNames := ["a"],
    nodes := [⟨noRuleOp, [Expr.ref 0]⟩],
    output := PyTree.leaf (Expr.ref 1) }

/-- A graph whose nodes are all lowerable (there are none) but whose
output structure contains a non-tensor leaf: it returns the pair
`(x, 3)`. -/
def badOutGraph : Graph :=
  { inputNames := ["x"],
    nodes := [],
    output := PyTree.cons (PyTree.leaf (Expr.ref 0))
      (PyTree.cons (PyTree.leaf (Expr.lit (Value.scalar 3))) PyTree.nil) }

/-! ## Dictionary lemmas -/

theorem dictContains_append {α : Type} (d1 d2 : Dict α) (k : String) :
    dictContains (d1 ++ d2) k = (dictContains d1 k || dictContains d2 k) := by
  simp [dictContains]

theorem dictContains_iff_mem {α : Type} (d : Dict α) (k : String) :
    dictContains d k = true ↔ k ∈ dictKeys d := by
  induction d with
  | nil => simp [dictContains, dictKeys]
  | cons p rest ih =>
    simp only [dictContains, dictKeys, List.any_cons, List.map_cons, List.mem_cons,
      Bool.or_eq_true, beq_iff_eq] at *
    constructor
    · rintro (h | h)
      · exact Or.inl h.symm
      · exact Or.inr (ih.mp h)
    · rintro (h | h)
      · exact Or.inl h.symm
      · exact Or.inr (ih.mpr h)

theorem dictInsert_absent {α : Type} (d : Dict α) (k : String) (v : α)
    (h : dictContains d k = false) : dictInsert d k v = d ++ [(k, v)] := by
  simp [dictInsert, h]

theorem dictKeys_dictInsert_contains {α : Type} (d : Dict α) (k : String) (v : α)
    (h : dictContains d k = true) : dictKeys (dictInsert d k v) = dictKeys d := by
  simp only [dictInsert, h, if_pos, dictKeys, List.map_map]
  apply List.map_congr_left
  intro p _
  by_cases hb : p.1 = k
  · simp [Function.comp, beq_iff_eq, hb]
  · simp [Function.comp, beq_iff_eq, hb]

theorem nodupKeys_dictInsert {α : Type} (d : Dict α) (k : String) (v : α)
    (h : (dictKeys d).Nodup) : (dictKeys (dictInsert d k v)).Nodup := by
  by_cases hc : dictContains d k
  · rw [dictKeys_dictInsert_contains d k v hc]; exact h
  · rw [dictInsert_absent d k v (by simpa using hc)]
    have hk : k ∉ dictKeys d := fun hm =>
      hc ((dictContains_iff_mem d k).mpr hm)
    simp [dictKeys, List.nodup_append]
    exact ⟨by simpa [dictKeys] using h, by simpa [dictKeys] using hk⟩

theorem foldl_dictInsert_disjoint {α : Type} (l : List (String × α)) :
    ∀ acc : Dict α, (l.map Prod.fst).Nodup →
    (∀ p ∈ l, dictContains acc p.1 = false) →
    l.foldl (fun d p => dictInsert d p.1 p.2) acc = acc ++ l := by
  induction l with
  | nil => intro acc _ _; simp
  | cons p rest ih =>
    intro acc hnodup hdisj
    rw [List.map_cons, List.nodup_cons] at hnodup
    simp only [List.foldl_cons]
    rw [dictInsert_absent acc p.1 p.2 (hdisj p (by simp))]
    rw [ih (acc ++ [p]) hnodup.2 ?_]
    · simp
    · intro q hq
      rw [dictContains_append]
      have h1 : dictContains acc q.1 = false := hdisj q (List.mem_cons_of_mem _ hq)
      have h2 : ¬p.1 = q.1 := fun he =>
        hnodup.1 (he ▸ List.mem_map_of_mem Prod.fst hq)
      rw [h1]
      simp [dictContains, beq_iff_eq, h2]

theorem nodupKeys_foldl_dictInsert {α : Type} (l : List (String × α)) :
    ∀ acc : Dict α, (dictKeys acc).Nodup →
    (dictKeys (l.foldl (fun d p => dictInsert d p.1 p.2) acc)).Nodup := by
  induction l with
  | nil => intro acc h; simpa using h
  | cons p rest ih =>
    intro acc h
    simp only [List.foldl_cons]
    exact ih _ (nodupKeys_dictInsert acc p.1 p.2 h)

theorem dictOfPairs_self {α : Type} (l : List (String × α))
    (h : (l.map Prod.fst).Nodup) : dictOfPairs l = l := by
  have := foldl_dictInsert_disjoint l [] h (by intro p _; simp [dictContains])
  simpa [dictOfPairs] using this

theorem copyKwargs_self (kwargs : Dict Value) (h : (dictKeys kwargs).Nodup) :
    copyKwargs kwargs = kwargs := by
  have := foldl_dictInsert_disjoint kwargs [] (by simpa [dictKeys] using h)
    (by intro p _; simp [dictContains])
  simpa [copyKwargs] using this

theorem zip_fst_snd {α β : Type} (l : List (α × β)) :
    List.zip (l.map Prod.fst) (l.map Prod.snd) = l := by
  induction l with
  | nil => rfl
  | cons p rest ih => simp [List.zip_cons_cons, ih]

/-! ## Canonicalizer lemmas -/

theorem defaultsTail_key_irrel (params : List Param) (x : String)
    (hx : ∀ q ∈ params, q.name ≠ x) :
    ∀ i nargs keys, defaultsTail params i nargs (keys ++ [x]) =
      defaultsTail params i nargs keys := by
  induction params with
  | nil => intro i nargs keys; simp [defaultsTail]
  | cons p rest ih =>
    intro i nargs keys
    have hp : (x == p.name) = false := by
      have := hx p (by simp)
      simp [Ne.symm this]
    simp only [defaultsTail, List.any_append, List.any_cons, List.any_nil, hp]
    rw [ih (fun q hq => hx q (List.mem_cons_of_mem _ hq)) (i + 1) nargs keys]
    simp

theorem dictContains_eq_any_keys {α : Type} (d : Dict α) (k : String) :
    dictContains d k = (dictKeys d).any (fun s => s == k) := by
  induction d with
  | nil => rfl
  | cons p rest ih => simp [dictContains, dictKeys, List.any_cons] at *; rw [ih]

theorem populateDefaults_append (params : List Param) :
    ∀ (i nargs : Nat) (d : Dict Value), (params.map Param.name).Nodup →
    populateDefaults params i nargs d = d ++ defaultsTail params i nargs (dictKeys d) := by
  induction params with
  | nil => intro i nargs d _; simp [populateDefaults, defaultsTail]
  | cons p rest ih =>
    intro i nargs d hnodup
    rw [List.map_cons, List.nodup_cons] at hnodup
    have hcont := dictContains_eq_any_keys d p.name
    by_cases h1 : i < nargs
    · simp only [populateDefaults, defaultsTail, h1, if_true]
      rw [ih (i + 1) nargs d hnodup.2]
      simp
    · cases hd : p.dflt with
      | none =>
        simp only [populateDefaults, defaultsTail, h1, if_false, hd]
        rw [ih (i + 1) nargs d hnodup.2]
        simp
      | some v =>
        by_cases h2 : dictContains d p.name = true
        · have hky : ((dictKeys d).any (fun s => s == p.name)) = true := hcont ▸ h2
          simp only [populateDefaults, defaultsTail, h1, if_false, hd, h2, hky, if_true]
          rw [ih (i + 1) nargs d hnodup.2]
          simp
        · have h2f : dictContains d p.name = false := by simpa using h2
          have hky : ((dictKeys d).any (fun s => s == p.name)) = false := hcont ▸ h2f
          simp only [populateDefaults, defaultsTail, h1, if_false, hd, h2f, hky,
            Bool.false_eq_true]
          rw [dictInsert_absent d p.name v h2f]
          rw [ih (i + 1) nargs (d ++ [(p.name, v)]) hnodup.2]
          have hx : ∀ q ∈ rest, q.name ≠ p.name := fun q hq he =>
            hnodup.1 (he ▸ List.mem_map_of_mem Param.name hq)
          have hkeys : dictKeys (d ++ [(p.name, v)]) = dictKeys d ++ [p.name] := by
            simp [dictKeys]
          rw [hkeys, defaultsTail_key_irrel rest p.name hx (i + 1) nargs (dictKeys d)]
          simp

theorem nodupKeys_populateDefaults (params : List Param) :
    ∀ (i nargs : Nat) (d : Dict Value), (dictKeys d).Nodup →
    (dictKeys (populateDefaults params i nargs d)).Nodup := by
  induction params with
  | nil => intro i nargs d h; simpa [populateDefaults] using h
  | cons p rest ih =>
    intro i nargs d h
    by_cases h1 : i < nargs
    · simpa only [populateDefaults, h1, if_true] using ih (i + 1) nargs d h
    · cases hd : p.dflt with
      | none =>
        simpa only [populateDefaults, h1, if_false, hd] using ih (i + 1) nargs d h
      | some v =>
        by_cases h2 : dictContains d p.name
        · simp only [populateDefaults, h1, if_false, hd, h2, if_true]
          exact ih (i + 1) nargs d h
        · have h2f : dictContains d p.name = false := by simpa using h2
          simp only [populateDefaults, h1, if_false, hd, h2f, Bool.false_eq_true,
            if_false]
          exact ih (i + 1) nargs _ (nodupKeys_dictInsert d p.name v h)

theorem mergedKwargs_nodup (params : List Param) (nargs : Nat) (kwargs : Dict Value) :
    (dictKeys (mergedKwargs params nargs kwargs)).Nodup :=
  nodupKeys_populateDefaults params 0 nargs _
    (nodupKeys_foldl_dictInsert kwargs [] (by simp [dictKeys]))

/-! ## Claims C2, C3, C10: the canonicalizer and its adapter -/

/-- C2, counterexample: the canonical flat list built by `_traced` keeps
the caller's keyword values in the order the caller supplied them, not in
parameter declaration order.  For `f(a, b=1.0, c=2.0)` called as
`f(10, c=5.0, b=6.0)` the code produces `[10, 5, 6]` while the claim's
declaration-order reading produces `[10, 6, 5]`. -/
theorem c2_counterexample :
    allArgs cxParams cxArgs cxKwargs =
      [Value.scalar 10, Value.scalar 5, Value.scalar 6] ∧
    specCanonicalArgs cxParams cxArgs cxKwargs =
      [Value.scalar 10, Value.scalar 6, Value.scalar 5] ∧
    allArgs cxParams cxArgs cxKwargs ≠ specCanonicalArgs cxParams cxArgs cxKwargs := by
  decide

/-- C2 (amended): for every call with distinct parameter names and
distinct keyword names, the canonical flat argument list equals the
caller's positional arguments in their original positions, followed by the
caller's keyword values in the order they were supplied, followed by the
declared defaults of the remaining defaulted parameters in declaration
order (skipping parameters satisfied positionally or by keyword); in
particular `g(a, c=2.0)` called as `g(a)` yields `[a, 2.0]`. -/
theorem c2_canonical_arg_list (params : List Param) (args : List Value)
    (kwargs : Dict Value) (hp : (params.map Param.name).Nodup)
    (hk : (dictKeys kwargs).Nodup) :
    allArgs params args kwargs =
      args ++ dictValues kwargs ++
        (defaultsTail params 0 args.length (dictKeys kwargs)).map Prod.snd := by
  unfold allArgs mergedKwargs
  rw [copyKwargs_self kwargs hk, populateDefaults_append params 0 args.length kwargs hp]
  simp [dictValues]

/-- C2 witness: the spec scenario `g(a, c=2.0)` called as `g(a)`
canonicalizes to `[a, 2.0]`. -/
theorem c2_canonical_arg_list_witness :
    allArgs gParams [Value.tensor tenA] [] = [Value.tensor tenA, Value.scalar 2] := by
  have h := c2_canonical_arg_list gParams [Value.tensor tenA] [] (by decide) (by decide)
  exact h.trans (by decide)

/-- C3, counterexample: the adapter re-zips the merged keyword mapping's
names in insertion order (caller keyword order first), not in declaration
order.  For `f(a, b=1.0, c=2.0)` called as `f(10, c=5.0, b=6.0)` the
adapter rebuilds `{c: 5, b: 6}` from the canonical list while the claim's
declaration-order re-zip produces `{b: 5, c: 6}`. -/
theorem c3_counterexample :
    wrappedSplit cxParams cxArgs cxKwargs (allArgs cxParams cxArgs cxKwargs) =
      ([Value.scalar 10], [("c", Value.scalar 5), ("b", Value.scalar 6)]) ∧
    specAdapterSplit cxParams cxArgs cxKwargs (allArgs cxParams cxArgs cxKwargs) =
      ([Value.scalar 10], [("b", Value.scalar 5), ("c", Value.scalar 6)]) ∧
    wrappedSplit cxParams cxArgs cxKwargs (allArgs cxParams cxArgs cxKwargs) ≠
      specAdapterSplit cxParams cxArgs cxKwargs (allArgs cxParams cxArgs cxKwargs) := by
  decide

/-- C3 (amended): given any flat sequence matching the canonical argument
list's arity, the adapter re-splits it into the positional prefix of the
original call's arity and a keyword dictionary obtained by re-zipping the
merged keyword mapping's names — in insertion order: caller-supplied
keywords first, then defaulted parameters in declaration order — against
the trailing entries of the flat sequence. -/
theorem c3_adapter_resplit (params : List Param) (args : List Value)
    (kwargs : Dict Value) (flat : List Value)
    (hlen : flat.length = (allArgs params args kwargs).length) :
    (wrappedSplit params args kwargs flat).1 = flat.take args.length ∧
    dictKeys (wrappedSplit params args kwargs flat).2 =
      dictKeys (mergedKwargs params args.length kwargs) ∧
    dictValues (wrappedSplit params args kwargs flat).2 = flat.drop args.length := by
  have hnd : (dictKeys (mergedKwargs params args.length kwargs)).Nodup :=
    mergedKwargs_nodup params args.length kwargs
  have hflat : flat.length =
      args.length + (dictKeys (mergedKwargs params args.length kwargs)).length := by
    rw [hlen]; simp [allArgs, dictValues, dictKeys]
  have hlen2 : (dictKeys (mergedKwargs params args.length kwargs)).length =
      (flat.drop args.length).length := by
    simp [List.length_drop, hflat]
  have hz1 : (List.zip (dictKeys (mergedKwargs params args.length kwargs))
      (flat.drop args.length)).map Prod.fst =
      dictKeys (mergedKwargs params args.length kwargs) :=
    List.map_fst_zip _ _ (le_of_eq hlen2)
  have hz2 : (List.zip (dictKeys (mergedKwargs params args.length kwargs))
      (flat.drop args.length)).map Prod.snd = flat.drop args.length :=
    List.map_snd_zip _ _ (le_of_eq hlen2.symm)
  have hself : dictOfPairs (List.zip (dictKeys (mergedKwargs params args.length kwargs))
      (flat.drop args.length)) =
      List.zip (dictKeys (mergedKwargs params args.length kwargs))
        (flat.drop args.length) :=
    dictOfPairs_self _ (by rw [hz1]; exact hnd)
  refine ⟨rfl, ?_, ?_⟩
  · show dictKeys (dictOfPairs _) = _
    rw [hself]
    exact hz1
  · show dictValues (dictOfPairs _) = _
    rw [hself]
    exact hz2

/-- C3 witness: on the `g(a, c=2.0)` scenario the adapter recovers the
positional prefix `[a]` and the keyword values `[2.0]`. -/
theorem c3_adapter_resplit_witness :
    (wrappedSplit gParams [Value.tensor tenA] []
        (allArgs gParams [Value.tensor tenA] [])).1 = [Value.tensor tenA] ∧
    dictValues (wrappedSplit gParams [Value.tensor tenA] []
        (allArgs gParams [Value.tensor tenA] [])).2 = [Value.scalar 2] := by
  have h := c3_adapter_resplit gParams [Value.tensor tenA] []
    (allArgs gParams [Value.tensor tenA] []) rfl
  exact ⟨h.1.trans (by decide), h.2.2.trans (by decide)⟩

/-- C10: canonicalization is idempotent on the merged argument list —
applying the adapter to the canonical flat list reproduces exactly the
positional arguments and the merged keyword mapping it was built from, and
re-flattening that split yields the same canonical list (so re-applying
the adapter yields the same split again). -/
theorem c10_adapter_roundtrip (params : List Param) (args : List Value)
    (kwargs : Dict Value) :
    wrappedSplit params args kwargs (allArgs params args kwargs) =
      (args, mergedKwargs params args.length kwargs) ∧
    args ++ dictValues (mergedKwargs params args.length kwargs) =
      allArgs params args kwargs := by
  constructor
  · have h1 : (allArgs params args kwargs).take args.length = args := by
      simp [allArgs]
    have h2 : (allArgs params args kwargs).drop args.length =
        dictValues (mergedKwargs params args.length kwargs) := by
      simp [allArgs]
    have h3 : List.zip (dictKeys (mergedKwargs params args.length kwargs))
        (dictValues (mergedKwargs params args.length kwargs)) =
        mergedKwargs params args.length kwargs :=
      zip_fst_snd (mergedKwargs params args.length kwargs)
    have h4 : dictOfPairs (mergedKwargs params args.length kwargs) =
        mergedKwargs params args.length kwargs :=
      dictOfPairs_self _ (mergedKwargs_nodup params args.length kwargs)
    simp [wrappedSplit, h1, h2, h3, h4]
  · rfl

/-! ## Fusion monad plumbing -/

theorem bindF_eq_ok {α β : Type} {m : FusionM α} {k : α → FusionM β} {s s2 : FState}
    {a : α} (h : m s = (Except.ok a, s2)) : bindF m k s = k a s2 := by
  simp [bindF, h]

theorem bindF_eq_err {α β : Type} {m : FusionM α} {k : α → FusionM β} {s s2 : FState}
    {e : Err} (h : m s = (Except.error e, s2)) :
    bindF m k s = (Except.error e, s2) := by
  simp [bindF, h]

theorem pureF_emits {α : Type} (a : α) (p : FEvent → Prop) :
    EmitsOnly (pureF a) p := by
  intro s
  exact ⟨[], by simp [pureF], by simp⟩

theorem throwF_emits {α : Type} (e : Err) (p : FEvent → Prop) :
    EmitsOnly (throwF e : FusionM α) p := by
  intro s
  exact ⟨[], by simp [throwF], by simp⟩

theorem liftE_emits {α : Type} (r : Except Err α) (p : FEvent → Prop) :
    EmitsOnly (liftE r) p := by
  intro s
  exact ⟨[], by simp [liftE], by simp⟩

theorem bindF_emits {α β : Type} {m : FusionM α} {k : α → FusionM β}
    {p : FEvent → Prop} (hm : EmitsOnly m p) (hk : ∀ a, EmitsOnly (k a) p) :
    EmitsOnly (bindF m k) p := by
  intro s
  obtain ⟨δ1, hδ1, hp1⟩ := hm s
  match hms : m s with
  | (Except.ok a, s1) =>
    obtain ⟨δ2, hδ2, hp2⟩ := hk a s1
    have hs1 : s1.trace = s.trace ++ δ1 := by rw [hms] at hδ1; exact hδ1
    refine ⟨δ1 ++ δ2, ?_, ?_⟩
    · rw [bindF_eq_ok hms, hδ2, hs1, List.append_assoc]
    · intro e he
      rcases List.mem_append.mp he with h | h
      · exact hp1 e h
      · exact hp2 e h
  | (Except.error e, s1) =>
    have hs1 : s1.trace = s.trace ++ δ1 := by rw [hms] at hδ1; exact hδ1
    refine ⟨δ1, ?_, hp1⟩
    rw [bindF_eq_err hms]
    exact hs1

theorem emits_mono {α : Type} {m : FusionM α} {p q : FEvent → Prop}
    (hm : EmitsOnly m p) (hpq : ∀ e, p e → q e) : EmitsOnly m q := by
  intro s
  obtain ⟨δ, hδ, hp⟩ := hm s
  exact ⟨δ, hδ, fun e he => hpq e (hp e he)⟩

theorem mapF_emits {α β : Type} {f : α → FusionM β} {p : FEvent → Prop}
    (hf : ∀ a, EmitsOnly (f a) p) (l : List α) : EmitsOnly (mapF f l) p := by
  induction l with
  | nil => exact pureF_emits _ _
  | cons a rest ih =>
    exact bindF_emits (hf a) (fun b => bindF_emits ih (fun bs => pureF_emits _ _))

theorem forF_emits {α : Type} {f : α → FusionM Unit} {p : FEvent → Prop}
    (hf : ∀ a, EmitsOnly (f a) p) (l : List α) : EmitsOnly (forF f l) p := by
  induction l with
  | nil => exact pureF_emits _ _
  | cons a rest ih => exact bindF_emits (hf a) (fun _ => ih)

/-- Membership of a non-`p` event in the final trace of an `EmitsOnly p`
computation must come from the initial trace. -/
theorem emits_mem {α : Type} {m : FusionM α} {p : FEvent → Prop}
    (hm : EmitsOnly m p) (s : FState) {e : FEvent} (hme : e ∈ ((m s).2).trace)
    (hnp : ¬p e) : e ∈ s.trace := by
  obtain ⟨δ, hδ, hp⟩ := hm s
  rw [hδ] at hme
  rcases List.mem_append.mp hme with h | h
  · exact h
  · exact absurd (hp e h) hnp

/-! ## Evaluation of the registration stage -/

theorem to_nv_tensor (nvD : Nat → Nat) (t : TensorData) (s : FState) :
    to_nv nvD (Value.tensor t) s =
      (Except.ok (NvVal.tHandle s.nextHandle),
       ⟨s.nextHandle + 1,
        s.trace ++ [FEvent.defineTensor t.shape t.stride (nvD t.dtype),
          FEvent.addInput s.nextHandle]⟩) := by
  simp [to_nv, bindF, defineTensorF, addInputF, pureF]

theorem to_nv_scalar (nvD : Nat → Nat) (x : Int) (s : FState) :
    to_nv nvD (Value.scalar x) s = (Except.ok (NvVal.val (Value.scalar x)), s) := rfl

theorem to_nv_misc (nvD : Nat → Nat) (n : Nat) (s : FState) :
    to_nv nvD (Value.misc n) s = (Except.ok (NvVal.val (Value.misc n)), s) := rfl

theorem mapF_to_nv (nvD : Nat → Nat) :
    ∀ (args : List Value) (s : FState),
    mapF (to_nv nvD) args s =
      (Except.ok (regHandles s.nextHandle args),
       ⟨s.nextHandle + (args.filter Value.isTensor).length,
        s.trace ++ regDelta nvD s.nextHandle args⟩) := by
  intro args
  induction args with
  | nil => intro s; simp [mapF, pureF, regHandles, regDelta]
  | cons a rest ih =>
    intro s
    cases a with
    | tensor t =>
      rw [mapF, bindF_eq_ok (to_nv_tensor nvD t s)]
      rw [bindF_eq_ok (ih ⟨s.nextHandle + 1, _⟩)]
      simp [pureF, regHandles, regDelta, Value.isTensor, List.filter]
      omega
    | scalar x =>
      rw [mapF, bindF_eq_ok (to_nv_scalar nvD x s)]
      rw [bindF_eq_ok (ih s)]
      simp [pureF, regHandles, regDelta, Value.isTensor, List.filter]
    | misc n =>
      rw [mapF, bindF_eq_ok (to_nv_misc nvD n s)]
      rw [bindF_eq_ok (ih s)]
      simp [pureF, regHandles, regDelta, Value.isTensor, List.filter]

theorem regHandles_length (h0 : Nat) (args : List Value) :
    (regHandles h0 args).length = args.length := by
  induction args generalizing h0 with
  | nil => rfl
  | cons a rest ih =>
    cases a <;> simp [regHandles, ih]

theorem mapF_kw_to_nv (nvD : Nat → Nat) :
    ∀ (kwargs : List (String × Value)) (s : FState),
    mapF (fun p => bindF (to_nv nvD p.2) (fun v => pureF (p.1, v))) kwargs s =
      (Except.ok (regKwHandles s.nextHandle kwargs),
       ⟨s.nextHandle + ((kwargs.map Prod.snd).filter Value.isTensor).length,
        s.trace ++ regDelta nvD s.nextHandle (kwargs.map Prod.snd)⟩) := by
  intro kwargs
  induction kwargs with
  | nil => intro s; simp [mapF, pureF, regKwHandles, regDelta]
  | cons p rest ih =>
    intro s
    obtain ⟨k, v⟩ := p
    cases v with
    | tensor t =>
      rw [mapF]
      rw [bindF_eq_ok (show bindF (to_nv nvD (Value.tensor t)) (fun v => pureF (k, v)) s =
          (Except.ok (k, NvVal.tHandle s.nextHandle),
           ⟨s.nextHandle + 1,
            s.trace ++ [FEvent.defineTensor t.shape t.stride (nvD t.dtype),
              FEvent.addInput s.nextHandle]⟩) by
        rw [bindF_eq_ok (to_nv_tensor nvD t s)]
        simp [pureF])]
      rw [bindF_eq_ok (ih ⟨s.nextHandle + 1, _⟩)]
      simp [pureF, regKwHandles, regDelta, Value.isTensor, List.filter]
      omega
    | scalar x =>
      rw [mapF]
      rw [bindF_eq_ok (show bindF (to_nv nvD (Value.scalar x)) (fun v => pureF (k, v)) s =
          (Except.ok (k, NvVal.val (Value.scalar x)), s) by
        rw [bindF_eq_ok (to_nv_scalar nvD x s)]
        simp [pureF])]
      rw [bindF_eq_ok (ih s)]
      simp [pureF, regKwHandles, regDelta, Value.isTensor, List.filter]
    | misc n =>
      rw [mapF]
      rw [bindF_eq_ok (show bindF (to_nv nvD (Value.misc n)) (fun v => pureF (k, v)) s =
          (Except.ok (k, NvVal.val (Value.misc n)), s) by
        rw [bindF_eq_ok (to_nv_misc nvD n s)]
        simp [pureF])]
      rw [bindF_eq_ok (ih s)]
      simp [pureF, regKwHandles, regDelta, Value.isTensor, List.filter]

/-! ## Evaluation of the constant-translation stage and node lowering -/

theorem toConst_scalar (x : Int) (s : FState) :
    _to_nvfuser_constant (NvVal.val (Value.scalar x)) s =
      (Except.ok (NvVal.cHandle s.nextHandle),
       ⟨s.nextHandle + 1, s.trace ++ [FEvent.defineConstant x]⟩) := by
  simp [_to_nvfuser_constant, bindF, defineConstantF, pureF]

theorem mapF_toConst :
    ∀ (vs : List NvVal) (s : FState),
    mapF _to_nvfuser_constant vs s =
      (Except.ok (constOut s.nextHandle vs),
       ⟨s.nextHandle + scalarCount vs, s.trace ++ constDelta s.nextHandle vs⟩) := by
  intro vs
  induction vs with
  | nil => intro s; simp [mapF, pureF, constOut, constDelta, scalarCount]
  | cons v rest ih =>
    intro s
    match v with
    | NvVal.val (Value.scalar x) =>
      rw [mapF, bindF_eq_ok (toConst_scalar x s)]
      rw [bindF_eq_ok (ih ⟨s.nextHandle + 1, _⟩)]
      simp [pureF, constOut, constDelta, scalarCount, List.filter]
      omega
    | NvVal.tHandle h =>
      rw [mapF, bindF_eq_ok (show _to_nvfuser_constant (NvVal.tHandle h) s =
        (Except.ok (NvVal.tHandle h), s) from rfl)]
      rw [bindF_eq_ok (ih s)]
      simp [pureF, constOut, constDelta, scalarCount, List.filter]
    | NvVal.cHandle h =>
      rw [mapF, bindF_eq_ok (show _to_nvfuser_constant (NvVal.cHandle h) s =
        (Except.ok (NvVal.cHandle h), s) from rfl)]
      rw [bindF_eq_ok (ih s)]
      simp [pureF, constOut, constDelta, scalarCount, List.filter]
    | NvVal.val (Value.tensor t) =>
      rw [mapF, bindF_eq_ok (show _to_nvfuser_constant (NvVal.val (Value.tensor t)) s =
        (Except.ok (NvVal.val (Value.tensor t)), s) from rfl)]
      rw [bindF_eq_ok (ih s)]
      simp [pureF, constOut, constDelta, scalarCount, List.filter]
    | NvVal.val (Value.misc n) =>
      rw [mapF, bindF_eq_ok (show _to_nvfuser_constant (NvVal.val (Value.misc n)) s =
        (Except.ok (NvVal.val (Value.misc n)), s) from rfl)]
      rw [bindF_eq_ok (ih s)]
      simp [pureF, constOut, constDelta, scalarCount, List.filter]

theorem mem_constDelta {x : Int} :
    ∀ (vs : List NvVal) (h0 : Nat), NvVal.val (Value.scalar x) ∈ vs →
    FEvent.defineConstant x ∈ constDelta h0 vs := by
  intro vs
  induction vs with
  | nil => intro h0 h; simp at h
  | cons v rest ih =>
    intro h0 hmem
    rcases List.mem_cons.mp hmem with h | h
    · rw [← h]
      simp [constDelta]
    · match v with
      | NvVal.val (Value.scalar y) => simp [constDelta]; exact Or.inr (ih _ h)
      | NvVal.tHandle hh => simpa [constDelta] using ih _ h
      | NvVal.cHandle hh => simpa [constDelta] using ih _ h
      | NvVal.val (Value.tensor t) => simpa [constDelta] using ih _ h
      | NvVal.val (Value.misc n) => simpa [constDelta] using ih _ h

theorem callFunction_ok (t : OpDef) (vs : List NvVal) (s : FState)
    (h : t.implNv = true) :
    callFunction t vs s =
      (Except.ok (NvVal.tHandle (s.nextHandle + scalarCount vs)),
       ⟨s.nextHandle + scalarCount vs + 1,
        s.trace ++ (constDelta s.nextHandle vs ++ [FEvent.lowerOp t.name])⟩) := by
  unfold callFunction
  rw [bindF_eq_ok (mapF_toConst vs s)]
  simp [h, lowerRule, List.append_assoc]

theorem callFunction_err (t : OpDef) (vs : List NvVal) (s : FState)
    (h : t.implNv = false) :
    callFunction t vs s =
      (Except.error (Err.loweringNoRule t.name),
       ⟨s.nextHandle + scalarCount vs, s.trace ++ constDelta s.nextHandle vs⟩) := by
  unfold callFunction
  rw [bindF_eq_ok (mapF_toConst vs s)]
  simp [h, throwF]

/-! ## Resolution and interpretation lemmas -/

theorem resolveNv_bound (env : List NvVal) (e : Expr)
    (h : exprBoundB env.length e = true) :
    ∃ v, ∀ s, resolveNv env e s = (Except.ok v, s) := by
  cases e with
  | lit v => exact ⟨NvVal.val v, fun s => rfl⟩
  | ref i =>
    simp [exprBoundB] at h
    refine ⟨env.get ⟨i, h⟩, fun s => ?_⟩
    simp [resolveNv, List.getElem?_eq_getElem h, pureF]

theorem mapF_resolve (env : List NvVal) :
    ∀ (es : List Expr), (∀ e ∈ es, exprBoundB env.length e = true) →
    ∃ vs, ∀ s, mapF (resolveNv env) es s = (Except.ok vs, s) := by
  intro es
  induction es with
  | nil => intro _; exact ⟨[], fun s => by simp [mapF, pureF]⟩
  | cons e rest ih =>
    intro hb
    obtain ⟨v, hv⟩ := resolveNv_bound env e (hb e (by simp))
    obtain ⟨vs, hvs⟩ := ih (fun e2 he2 => hb e2 (List.mem_cons_of_mem _ he2))
    refine ⟨v :: vs, fun s => ?_⟩
    rw [mapF, bindF_eq_ok (hv s), bindF_eq_ok (hvs s)]
    simp [pureF]

theorem interpretNodes_missing :
    ∀ (nodes : List GNode) (j : Nat) (env : List NvVal) (s : FState) (nj : GNode),
    nodes.get? j = some nj →
    nj.target.implNv = false →
    (∀ n ∈ nodes.take j, n.target.implNv = true) →
    (∀ (k : Nat) (n : GNode), nodes.get? k = some n →
      ∀ e ∈ n.args, exprBoundB (env.length + k) e = true) →
    ∃ s2, interpretNodes nodes env s =
      (Except.error (Err.loweringNoRule nj.target.name), s2) := by
  intro nodes
  induction nodes with
  | nil => intro j env s nj hj; simp at hj
  | cons n rest ih =>
    intro j env s nj hj hnj hpre hwf
    have hargs : ∀ e ∈ n.args, exprBoundB env.length e = true := by
      have := hwf 0 n rfl
      simpa using this
    obtain ⟨vs, hvs⟩ := mapF_resolve env n.args hargs
    cases j with
    | zero =>
      have hn : n = nj := by simpa using hj
      subst hn
      rw [interpretNodes, bindF_eq_ok (hvs s)]
      rw [bindF_eq_err (callFunction_err n.target vs s hnj)]
      exact ⟨_, rfl⟩
    | succ k =>
      have hn : n.target.implNv = true := hpre n (by simp)
      rw [interpretNodes, bindF_eq_ok (hvs s)]
      rw [bindF_eq_ok (callFunction_ok n.target vs s hn)]
      apply ih k (env ++ [NvVal.tHandle (s.nextHandle + scalarCount vs)]) _ nj
        (by simpa using hj) hnj
        (fun n2 hn2 => hpre n2 (by simp; exact Or.inr hn2))
      intro k2 n2 hk2 e he
      have hb := hwf (k2 + 1) n2 (by simpa using hk2) e he
      have harith : (env ++ [NvVal.tHandle (s.nextHandle + scalarCount vs)]).length + k2 =
          env.length + (k2 + 1) := by
        simp
        omega
      rw [harith]
      exact hb

/-! ## What each stage emits -/

theorem interpEv_le_defEv : ∀ e, InterpEv e → DefinitionEv e := by
  intro e
  cases e <;> simp [InterpEv, DefinitionEv]

theorem interpEv_le_nonRegEv : ∀ e, InterpEv e → NonRegEv e := by
  intro e
  cases e <;> simp [InterpEv, NonRegEv]

theorem outputEv_le_defEv : ∀ e, OutputEv e → DefinitionEv e := by
  intro e
  cases e <;> simp [OutputEv, DefinitionEv]

theorem outputEv_le_nonRegEv : ∀ e, OutputEv e → NonRegEv e := by
  intro e
  cases e <;> simp [OutputEv, NonRegEv]

theorem defEv_le_bodyEv : ∀ e, DefinitionEv e → BodyEv e := by
  intro e
  cases e <;> simp [DefinitionEv, BodyEv]

theorem defEv_le_nonExecEv : ∀ e, DefinitionEv e → NonExecEv e := by
  intro e
  cases e <;> simp [DefinitionEv, NonExecEv]

theorem to_nv_emits (nvD : Nat → Nat) (v : Value) :
    EmitsOnly (to_nv nvD v) DefinitionEv := by
  intro s
  cases v with
  | tensor t =>
    refine ⟨[FEvent.defineTensor t.shape t.stride (nvD t.dtype),
      FEvent.addInput s.nextHandle], ?_, ?_⟩
    · rw [to_nv_tensor]
    · intro e he
      rcases List.mem_cons.mp he with h | h
      · rw [h]; trivial
      · rcases List.mem_cons.mp h with h2 | h2
        · rw [h2]; trivial
        · simp at h2
  | scalar x => exact ⟨[], by rw [to_nv_scalar]; simp, by simp⟩
  | misc n => exact ⟨[], by rw [to_nv_misc]; simp, by simp⟩

theorem toConst_emits (v : NvVal) :
    EmitsOnly (_to_nvfuser_constant v) InterpEv := by
  intro s
  match v with
  | NvVal.val (Value.scalar x) =>
    refine ⟨[FEvent.defineConstant x], ?_, ?_⟩
    · rw [toConst_scalar]
    · intro e he
      rcases List.mem_cons.mp he with h | h
      · rw [h]; trivial
      · simp at h
  | NvVal.tHandle h => exact ⟨[], by simp [_to_nvfuser_constant, pureF], by simp⟩
  | NvVal.cHandle h => exact ⟨[], by simp [_to_nvfuser_constant, pureF], by simp⟩
  | NvVal.val (Value.tensor t) =>
    exact ⟨[], by simp [_to_nvfuser_constant, pureF], by simp⟩
  | NvVal.val (Value.misc n) =>
    exact ⟨[], by simp [_to_nvfuser_constant, pureF], by simp⟩

theorem lowerRule_emits (op : String) (args : List NvVal) :
    EmitsOnly (lowerRule op args) InterpEv := by
  intro s
  refine ⟨[FEvent.lowerOp op], by simp [lowerRule], ?_⟩
  intro e he
  rcases List.mem_cons.mp he with h | h
  · rw [h]; trivial
  · simp at h

theorem callFunction_emits (t : OpDef) (vs : List NvVal) :
    EmitsOnly (callFunction t vs) InterpEv := by
  apply bindF_emits (mapF_emits toConst_emits vs)
  intro cargs
  by_cases h : t.implNv
  · simpa [h] using lowerRule_emits t.name cargs
  · simpa [h] using throwF_emits (α := NvVal) (Err.loweringNoRule t.name) InterpEv

theorem resolveNv_emits (env : List NvVal) (e : Expr) (p : FEvent → Prop) :
    EmitsOnly (resolveNv env e) p := by
  intro s
  refine ⟨[], ?_, by simp⟩
  cases e with
  | lit v => simp [resolveNv, pureF]
  | ref i => cases henv : env[i]? <;> simp [resolveNv, henv, pureF, throwF]

theorem interpretNodes_emits (nodes : List GNode) :
    ∀ env : List NvVal, EmitsOnly (interpretNodes nodes env) InterpEv := by
  induction nodes with
  | nil => intro env; exact pureF_emits env InterpEv
  | cons n rest ih =>
    intro env
    apply bindF_emits (mapF_emits (fun e => resolveNv_emits env e InterpEv) n.args)
    intro vs
    exact bindF_emits (callFunction_emits n.target vs) (fun r => ih (env ++ [r]))

theorem resolveOutTree_emits (env : List NvVal) (t : PyTree Expr) :
    EmitsOnly (resolveOutTree env t) InterpEv := by
  induction t with
  | leaf e =>
    exact bindF_emits (resolveNv_emits env e InterpEv) (fun v => pureF_emits _ _)
  | nil => exact pureF_emits _ _
  | cons x y ihx ihy =>
    exact bindF_emits ihx (fun a => bindF_emits ihy (fun b => pureF_emits _ _))

theorem lowerStage_emits (nvD : Nat → Nat) (g : Graph) (args : List Value)
    (kwargs : Dict Value) : EmitsOnly (lowerStage nvD g args kwargs) DefinitionEv := by
  apply bindF_emits (mapF_emits (to_nv_emits nvD) args)
  intro nvArgs
  apply bindF_emits (mapF_emits
    (fun p => bindF_emits (to_nv_emits nvD p.2) (fun v => pureF_emits _ _)) kwargs)
  intro nvKwargs
  apply bindF_emits (liftE_emits _ _)
  intro env0
  apply bindF_emits (emits_mono (interpretNodes_emits g.nodes env0) interpEv_le_defEv)
  intro env
  apply bindF_emits (emits_mono (resolveOutTree_emits env g.output) interpEv_le_defEv)
  intro out
  exact pureF_emits _ _

theorem add_output_emits (v : NvVal) : EmitsOnly (add_output v) OutputEv := by
  intro s
  match v with
  | NvVal.tHandle h =>
    refine ⟨[FEvent.addOutput h], by simp [add_output], ?_⟩
    intro e he
    rcases List.mem_cons.mp he with h2 | h2
    · rw [h2]; trivial
    · simp at h2
  | NvVal.cHandle h => exact ⟨[], by simp [add_output, throwF], by simp⟩
  | NvVal.val w => exact ⟨[], by simp [add_output, throwF], by simp⟩

theorem fusionExecute_eval (bufs : List Value) (n : Nat) (s : FState) :
    fusionExecute bufs n s =
      (Except.ok ((List.range n).map Value.misc),
       ⟨s.nextHandle, s.trace ++ [FEvent.backendExec bufs]⟩) := rfl

theorem fusionExecute_emits (bufs : List Value) (n : Nat) :
    EmitsOnly (fusionExecute bufs n) (fun e => e = FEvent.backendExec bufs) := by
  intro s
  refine ⟨[FEvent.backendExec bufs], by simp [fusionExecute], ?_⟩
  intro e he
  rcases List.mem_cons.mp he with h | h
  · exact h
  · simp at h

theorem nvfuserPath_emits (nvD : Nat → Nat) (g : Graph) (args : List Value)
    (kwargs : Dict Value) : EmitsOnly (nvfuserPath nvD g args kwargs) BodyEv := by
  apply bindF_emits
    (emits_mono (lowerStage_emits nvD g args kwargs) defEv_le_bodyEv)
  intro fo
  apply bindF_emits (emits_mono (forF_emits add_output_emits fo.1)
    (fun e he => defEv_le_bodyEv e (outputEv_le_defEv e he)))
  intro u
  apply bindF_emits (emits_mono (fusionExecute_emits (args.filter Value.isTensor) fo.1.length)
    (fun e he => by rw [he]; trivial))
  intro res
  exact pureF_emits _ _

/-! ## Claims C5 and C6: the dispatcher's error surface -/

/-- C5: for every executor name outside `{"aten", "nvfuser"}`, `execute`
fails with the `ValueError` (`InvalidExecutorError`) carrying the
offending name and the allowed names, touching neither the graph nor the
backend (the result carries no value and the event trace is empty). -/
theorem c5_invalid_executor (cuda : Bool) (nvD : Nat → Nat) (gm : Graph)
    (args : List Value) (executor : String) (kwargs : Dict Value)
    (h1 : executor ≠ "aten") (h2 : executor ≠ "nvfuser") :
    execute cuda nvD gm args executor kwargs =
      (Except.error (Err.invalidExecutor executor ["aten", "nvfuser"]), []) := by
  unfold execute
  rw [if_neg h1, if_neg h2]

/-- C5 witness: the executor name `"foo"` is rejected. -/
theorem c5_invalid_executor_witness :
    execute true (fun d => d) fwdGraph [Value.tensor tenA] "foo" [] =
      (Except.error (Err.invalidExecutor "foo" ["aten", "nvfuser"]), []) :=
  c5_invalid_executor true (fun d => d) fwdGraph [Value.tensor tenA] "foo" []
    (by decide) (by decide)

/-- C6: selecting the fusion executor with no accelerator available fails
with the `RuntimeError` (`BackendUnavailableError`) and the event trace is
empty: no backend definition scope is entered and no compilation step is
attempted. -/
theorem c6_backend_unavailable (nvD : Nat → Nat) (gm : Graph) (args : List Value)
    (kwargs : Dict Value) :
    execute false nvD gm args "nvfuser" kwargs =
      (Except.error Err.backendUnavailable, []) := rfl

/-! ## Claim C7: missing lowering rule -/

theorem liftE_eval {α : Type} {r : Except Err α} {a : α} (h : r = Except.ok a)
    (s : FState) : liftE r s = (Except.ok a, s) := by
  simp [liftE, h]

theorem bindPlaceholders_ok {α : Type} :
    ∀ (names : List String) (i : Nat) (args : List α) (kwargs : List (String × α)),
    i + names.length ≤ args.length →
    ∃ vs, bindPlaceholders names i args kwargs = Except.ok vs ∧
      vs.length = names.length := by
  intro names
  induction names with
  | nil => intro i args kwargs _; exact ⟨[], rfl, rfl⟩
  | cons nm rest ih =>
    intro i args kwargs h
    have hi : i < args.length := by simp at h; omega
    obtain ⟨vs, hvs, hlen⟩ := ih (i + 1) args kwargs (by simp at h ⊢; omega)
    refine ⟨args.get ⟨i, hi⟩ :: vs, ?_, by simp [hlen]⟩
    simp [bindPlaceholders, List.getElem?_eq_getElem hi, hvs, Except.map]

theorem nodesBoundB_spec :
    ∀ (nodes : List GNode) (base i : Nat), nodesBoundB base i nodes = true →
    ∀ (k : Nat) (n : GNode), nodes.get? k = some n →
    ∀ e ∈ n.args, exprBoundB (base + (i + k)) e = true := by
  intro nodes
  induction nodes with
  | nil => intro base i _ k n hk; simp at hk
  | cons m rest ih =>
    intro base i h k n hk e he
    rw [nodesBoundB, Bool.and_eq_true] at h
    cases k with
    | zero =>
      have hmn : m = n := by simpa using hk
      subst hmn
      have := (List.all_eq_true.mp h.1) e he
      simpa using this
    | succ k2 =>
      have := ih base (i + 1) h.2 k2 n (by simpa using hk) e he
      have harith : base + (i + 1 + k2) = base + (i + (k2 + 1)) := by omega
      rw [harith] at this
      exact this

theorem nodesWFB_spec (g : Graph) (hwf : nodesWFB g = true) :
    ∀ (k : Nat) (n : GNode), g.nodes.get? k = some n →
    ∀ e ∈ n.args, exprBoundB (g.inputNames.length + k) e = true := by
  intro k n hk e he
  have := nodesBoundB_spec g.nodes g.inputNames.length 0 hwf k n hk e he
  simpa using this

/-- C7: during fusion lowering, when the graph is well formed, its
placeholders are all bound positionally, every node before position `j`
has a registered lowering rule and the node at position `j` does not,
execution fails with the `LoweringError` naming that node's operation. -/
theorem c7_missing_rule (nvD : Nat → Nat) (g : Graph) (args : List Value)
    (kwargs : Dict Value) (j : Nat) (nj : GNode)
    (hargs : g.inputNames.length ≤ args.length)
    (hwf : nodesWFB g = true)
    (hj : g.nodes.get? j = some nj)
    (hpre : ∀ n ∈ g.nodes.take j, n.target.implNv = true)
    (hnj : nj.target.implNv = false) :
    (runNvfuser nvD g args kwargs).1 =
      Except.error (Err.loweringNoRule nj.target.name) := by
  have hls : ∀ s : FState, ∃ s2, lowerStage nvD g args kwargs s =
      (Except.error (Err.loweringNoRule nj.target.name), s2) := by
    intro s
    unfold lowerStage
    rw [bindF_eq_ok (mapF_to_nv nvD args s)]
    rw [bindF_eq_ok (mapF_kw_to_nv nvD kwargs _)]
    obtain ⟨env0, henv0, hlen0⟩ := bindPlaceholders_ok g.inputNames 0
      (regHandles s.nextHandle args) (regKwHandles (s.nextHandle +
        (args.filter Value.isTensor).length) kwargs)
      (by rw [regHandles_length]; omega)
    rw [bindF_eq_ok (liftE_eval henv0 _)]
    obtain ⟨s2, hs2⟩ := interpretNodes_missing g.nodes j env0 _ nj hj hnj hpre
      (fun k n hk e he => by
        rw [hlen0]
        exact nodesWFB_spec g hwf k n hk e he)
    exact ⟨s2, by rw [bindF_eq_err hs2]⟩
  obtain ⟨s2, hs2⟩ := hls ⟨0, [FEvent.enterScope]⟩
  have hfst : (runNvfuser nvD g args kwargs).1 =
      (nvfuserPath nvD g args kwargs ⟨0, [FEvent.enterScope]⟩).1 := rfl
  rw [hfst]
  unfold nvfuserPath
  rw [bindF_eq_err hs2]

/-- C7 witness: a one-node graph whose operation has no fusion rule fails
with the error naming `"weird_op"`. -/
theorem c7_missing_rule_witness :
    (runNvfuser (fun d => d) noRuleGraph [Value.tensor tenA] []).1 =
      Except.error (Err.loweringNoRule "weird_op") :=
  c7_missing_rule (fun d => d) noRuleGraph [Value.tensor tenA] [] 0
    ⟨noRuleOp, [Expr.ref 0]⟩ (by decide) (by decide) rfl
    (by simp) rfl

/-! ## Claims C8 and C9: output registration and the definition scope -/

theorem runNvfuser_trace (nvD : Nat → Nat) (g : Graph) (args : List Value)
    (kwargs : Dict Value) :
    (runNvfuser nvD g args kwargs).2 =
      ((nvfuserPath nvD g args kwargs ⟨0, [FEvent.enterScope]⟩).2).trace ++
        [FEvent.exitScope] := rfl

theorem runNvfuser_fst (nvD : Nat → Nat) (g : Graph) (args : List Value)
    (kwargs : Dict Value) :
    (runNvfuser nvD g args kwargs).1 =
      (nvfuserPath nvD g args kwargs ⟨0, [FEvent.enterScope]⟩).1 := rfl

theorem forF_addOutput_err :
    ∀ (leaves : List NvVal) (s : FState),
    leaves.any (fun v => !v.isTHandle) = true →
    ∃ s2, forF add_output leaves s = (Except.error Err.loweringBadOutput, s2) := by
  intro leaves
  induction leaves with
  | nil => intro s h; simp at h
  | cons v rest ih =>
    intro s h
    match v with
    | NvVal.tHandle hh =>
      have hrest : rest.any (fun v => !v.isTHandle) = true := by
        simpa [NvVal.isTHandle] using h
      obtain ⟨s2, hs2⟩ := ih ⟨s.nextHandle, s.trace ++ [FEvent.addOutput hh]⟩ hrest
      refine ⟨s2, ?_⟩
      rw [forF, bindF_eq_ok (show add_output (NvVal.tHandle hh) s =
        (Except.ok (), ⟨s.nextHandle, s.trace ++ [FEvent.addOutput hh]⟩) from rfl)]
      exact hs2
    | NvVal.cHandle hh =>
      exact ⟨s, by rw [forF, bindF_eq_err (show add_output (NvVal.cHandle hh) s =
        (Except.error Err.loweringBadOutput, s) from rfl)]⟩
    | NvVal.val w =>
      exact ⟨s, by rw [forF, bindF_eq_err (show add_output (NvVal.val w) s =
        (Except.error Err.loweringBadOutput, s) from rfl)]⟩

/-- C8: whenever the definition-and-lowering stage of a fusion run
succeeds (all nodes lowerable) but the flattened final output contains a
leaf that is not a backend tensor handle, the run fails with the
`LoweringError` for invalid outputs and the backend compile-and-execute
call is never made. -/
theorem c8_bad_output_leaf (nvD : Nat → Nat) (g : Graph) (args : List Value)
    (kwargs : Dict Value) (leaves : List NvVal) (spec : PyTree Unit) (s2 : FState)
    (hs : lowerStage nvD g args kwargs ⟨0, [FEvent.enterScope]⟩ =
      (Except.ok (leaves, spec), s2))
    (hbad : leaves.any (fun v => !v.isTHandle) = true) :
    (runNvfuser nvD g args kwargs).1 = Except.error Err.loweringBadOutput ∧
    ∀ bufs, FEvent.backendExec bufs ∉ (runNvfuser nvD g args kwargs).2 := by
  obtain ⟨s3, hs3⟩ := forF_addOutput_err leaves s2 hbad
  constructor
  · rw [runNvfuser_fst]
    unfold nvfuserPath
    rw [bindF_eq_ok hs, bindF_eq_err hs3]
  · intro bufs hmem
    rw [runNvfuser_trace] at hmem
    have htr : ((nvfuserPath nvD g args kwargs ⟨0, [FEvent.enterScope]⟩).2).trace =
        s3.trace := by
      unfold nvfuserPath
      rw [bindF_eq_ok hs, bindF_eq_err hs3]
    rw [htr] at hmem
    obtain ⟨δ1, hδ1, hp1⟩ := lowerStage_emits nvD g args kwargs ⟨0, [FEvent.enterScope]⟩
    have hs2tr : s2.trace = [FEvent.enterScope] ++ δ1 := by
      rw [hs] at hδ1; exact hδ1
    obtain ⟨δ2, hδ2, hp2⟩ := forF_emits add_output_emits leaves s2
    have hs3tr : s3.trace = s2.trace ++ δ2 := by
      rw [hs3] at hδ2; exact hδ2
    rw [hs3tr, hs2tr] at hmem
    rcases List.mem_append.mp hmem with h12 | hexit
    · rcases List.mem_append.mp h12 with h1 | h2
      · rcases List.mem_append.mp h1 with he | hd1
        · rcases List.mem_cons.mp he with hh | hh
          · exact FEvent.noConfusion hh
          · simp at hh
        · exact absurd (hp1 _ hd1) (by simp [DefinitionEv])
      · exact absurd (outputEv_le_defEv _ (hp2 _ h2)) (by simp [DefinitionEv])
    · simp at hexit

/-- C8 witness: a graph returning the pair `(x, 3)` (a tensor and a
scalar literal) fails with the invalid-output `LoweringError`. -/
theorem c8_bad_output_leaf_witness :
    (runNvfuser (fun d => d) badOutGraph [Value.tensor tenA] []).1 =
      Except.error Err.loweringBadOutput ∧
    FEvent.backendExec [Value.tensor tenA] ∉
      (runNvfuser (fun d => d) badOutGraph [Value.tensor tenA] []).2 := by
  have h := c8_bad_output_leaf (fun d => d) badOutGraph [Value.tensor tenA] []
    [NvVal.tHandle 0, NvVal.val (Value.scalar 3)]
    (PyTree.cons (PyTree.leaf ()) (PyTree.cons (PyTree.leaf ()) PyTree.nil))
    ⟨1, [FEvent.enterScope, FEvent.defineTensor [2] [1] 0, FEvent.addInput 0]⟩
    (by decide) (by decide)
  exact ⟨h.1, h.2 [Value.tensor tenA]⟩

theorem nvfuserPath_err_noexec (nvD : Nat → Nat) (g : Graph) (args : List Value)
    (kwargs : Dict Value) (s : FState) (err : Err)
    (h : (nvfuserPath nvD g args kwargs s).1 = Except.error err) :
    ∃ δ, ((nvfuserPath nvD g args kwargs s).2).trace = s.trace ++ δ ∧
      ∀ e ∈ δ, NonExecEv e := by
  unfold nvfuserPath at h ⊢
  match hls : lowerStage nvD g args kwargs s with
  | (Except.error e1, s1) =>
    rw [bindF_eq_err hls]
    obtain ⟨δ, hδ, hp⟩ := lowerStage_emits nvD g args kwargs s
    have hδ2 : s1.trace = s.trace ++ δ := by rw [hls] at hδ; exact hδ
    exact ⟨δ, hδ2, fun e he => defEv_le_nonExecEv e (hp e he)⟩
  | (Except.ok fo, s1) =>
    rw [bindF_eq_ok hls] at h ⊢
    match hfo : forF add_output fo.1 s1 with
    | (Except.error e2, s2) =>
      rw [bindF_eq_err hfo]
      obtain ⟨δ1, hδ1, hp1⟩ := lowerStage_emits nvD g args kwargs s
      have hs1tr : s1.trace = s.trace ++ δ1 := by rw [hls] at hδ1; exact hδ1
      obtain ⟨δ2, hδ2, hp2⟩ := forF_emits add_output_emits fo.1 s1
      have hs2tr : s2.trace = s1.trace ++ δ2 := by rw [hfo] at hδ2; exact hδ2
      refine ⟨δ1 ++ δ2, ?_, ?_⟩
      · rw [hs2tr, hs1tr, List.append_assoc]
      · intro e he
        rcases List.mem_append.mp he with h1 | h2
        · exact defEv_le_nonExecEv e (hp1 e h1)
        · exact defEv_le_nonExecEv e (outputEv_le_defEv e (hp2 e h2))
    | (Except.ok u, s2) =>
      rw [bindF_eq_ok hfo] at h
      rw [bindF_eq_ok (fusionExecute_eval (args.filter Value.isTensor) fo.1.length s2)]
        at h
      simp [pureF] at h

/-- C9: every fusion run acquires the definition scope, emits all backend
interactions strictly inside it, and releases it on every exit path; and
when the run fails, no backend compile-and-execute call was made, so no
partially defined program is ever submitted. -/
theorem c9_scoped_lifecycle (nvD : Nat → Nat) (g : Graph) (args : List Value)
    (kwargs : Dict Value) :
    (∃ δ, (runNvfuser nvD g args kwargs).2 =
        FEvent.enterScope :: (δ ++ [FEvent.exitScope]) ∧
      ∀ e ∈ δ, e ≠ FEvent.enterScope ∧ e ≠ FEvent.exitScope) ∧
    (∀ err, (runNvfuser nvD g args kwargs).1 = Except.error err →
      ∀ bufs, FEvent.backendExec bufs ∉ (runNvfuser nvD g args kwargs).2) := by
  constructor
  · obtain ⟨δ, hδ, hp⟩ := nvfuserPath_emits nvD g args kwargs ⟨0, [FEvent.enterScope]⟩
    refine ⟨δ, ?_, ?_⟩
    · rw [runNvfuser_trace, hδ]
      simp
    · intro e he
      have hb := hp e he
      cases e <;> simp [BodyEv] at hb ⊢
  · intro err herr bufs hmem
    obtain ⟨δ, hδ, hp⟩ := nvfuserPath_err_noexec nvD g args kwargs
      ⟨0, [FEvent.enterScope]⟩ err (by rw [← runNvfuser_fst]; exact herr)
    rw [runNvfuser_trace, hδ] at hmem
    rcases List.mem_append.mp hmem with h12 | hexit
    · rcases List.mem_append.mp h12 with h1 | h2
      · rcases List.mem_cons.mp h1 with he | he
        · exact FEvent.noConfusion he
        · simp at he
      · exact absurd (hp _ h2) (by simp [NonExecEv])
    · simp at hexit

/-- C9 witness: on a failing run (missing lowering rule) the backend
execute call is absent from the trace. -/
theorem c9_scoped_lifecycle_witness :
    FEvent.backendExec [Value.tensor tenA] ∉
      (runNvfuser (fun d => d) noRuleGraph [Value.tensor tenA] []).2 :=
  (c9_scoped_lifecycle (fun d => d) noRuleGraph [Value.tensor tenA] []).2
    (Err.loweringNoRule "weird_op") (by decide) [Value.tensor tenA]

/-! ## Claims C1 and C4: input registration, runtime buffers, constants -/

theorem filterMap_all_none {α β : Type} (f : α → Option β) :
    ∀ l : List α, (∀ a ∈ l, f a = none) → l.filterMap f = [] := by
  intro l
  induction l with
  | nil => intro _; rfl
  | cons a rest ih =>
    intro h
    rw [List.filterMap_cons, h a (by simp)]
    exact ih (fun a2 ha2 => h a2 (List.mem_cons_of_mem _ ha2))

theorem filter_all_false {α : Type} (p : α → Bool) :
    ∀ l : List α, (∀ a ∈ l, p a = false) → l.filter p = [] := by
  intro l
  induction l with
  | nil => intro _; rfl
  | cons a rest ih =>
    intro h
    rw [List.filter_cons, h a (by simp)]
    simp only [Bool.false_eq_true, if_false]
    exact ih (fun a2 ha2 => h a2 (List.mem_cons_of_mem _ ha2))

theorem nonRegEv_defTensorOf {e : FEvent} (h : NonRegEv e) : defTensorOf e = none := by
  cases e with
  | defineTensor sh st d => exact absurd h (by simp [NonRegEv])
  | addInput hh => exact absurd h (by simp [NonRegEv])
  | _ => rfl

theorem nonRegEv_addInput {e : FEvent} (h : NonRegEv e) : isAddInputEv e = false := by
  cases e with
  | defineTensor sh st d => exact absurd h (by simp [NonRegEv])
  | addInput hh => exact absurd h (by simp [NonRegEv])
  | _ => rfl

theorem regDelta_filterMap_def (nvD : Nat → Nat) :
    ∀ (args : List Value) (h0 : Nat),
    (regDelta nvD h0 args).filterMap defTensorOf = args.filterMap (descOf nvD) := by
  intro args
  induction args with
  | nil => intro h0; rfl
  | cons a rest ih =>
    intro h0
    cases a <;> simp [regDelta, descOf, defTensorOf, List.filterMap_cons, ih]

theorem regDelta_filter_addInput (nvD : Nat → Nat) :
    ∀ (args : List Value) (h0 : Nat),
    ((regDelta nvD h0 args).filter isAddInputEv).length =
      (args.filter Value.isTensor).length := by
  intro args
  induction args with
  | nil => intro h0; rfl
  | cons a rest ih =>
    intro h0
    cases a <;> simp [regDelta, isAddInputEv, Value.isTensor, List.filter_cons, ih]

theorem regDelta_nontensor (nvD : Nat → Nat) :
    ∀ (l : List Value) (h0 : Nat), (∀ v ∈ l, Value.isTensor v = false) →
    regDelta nvD h0 l = [] := by
  intro l
  induction l with
  | nil => intro h0 _; rfl
  | cons a rest ih =>
    intro h0 h
    cases a with
    | tensor t => exact absurd (h (Value.tensor t) (by simp)) (by simp [Value.isTensor])
    | scalar x => exact ih h0 (fun v hv => h v (List.mem_cons_of_mem _ hv))
    | misc n => exact ih h0 (fun v hv => h v (List.mem_cons_of_mem _ hv))

theorem lowerStage_trace (nvD : Nat → Nat) (g : Graph) (args : List Value)
    (kwargs : Dict Value) (s : FState) :
    ∃ δ, ((lowerStage nvD g args kwargs s).2).trace =
      s.trace ++ regDelta nvD s.nextHandle args ++
        regDelta nvD (s.nextHandle + (args.filter Value.isTensor).length)
          (kwargs.map Prod.snd) ++ δ ∧
      ∀ e ∈ δ, NonRegEv e := by
  unfold lowerStage
  rw [bindF_eq_ok (mapF_to_nv nvD args s)]
  rw [bindF_eq_ok (mapF_kw_to_nv nvD kwargs _)]
  exact (bindF_emits (liftE_emits _ _) (fun env0 =>
    bindF_emits (emits_mono (interpretNodes_emits g.nodes env0) interpEv_le_nonRegEv)
      (fun env => bindF_emits
        (emits_mono (resolveOutTree_emits env g.output) interpEv_le_nonRegEv)
        (fun out => pureF_emits _ _)))) _

theorem nvfuserPath_trace (nvD : Nat → Nat) (g : Graph) (args : List Value)
    (kwargs : Dict Value) (s : FState) :
    ∃ δ, ((nvfuserPath nvD g args kwargs s).2).trace =
      s.trace ++ regDelta nvD s.nextHandle args ++
        regDelta nvD (s.nextHandle + (args.filter Value.isTensor).length)
          (kwargs.map Prod.snd) ++ δ ∧
      ∀ e ∈ δ, NonRegEv e := by
  obtain ⟨δ1, hδ1, hp1⟩ := lowerStage_trace nvD g args kwargs s
  unfold nvfuserPath
  match hls : lowerStage nvD g args kwargs s with
  | (Except.error e1, s1) =>
    rw [bindF_eq_err hls]
    have hs1 : s1.trace = s.trace ++ regDelta nvD s.nextHandle args ++
        regDelta nvD (s.nextHandle + (args.filter Value.isTensor).length)
          (kwargs.map Prod.snd) ++ δ1 := by
      rw [hls] at hδ1; exact hδ1
    exact ⟨δ1, hs1, hp1⟩
  | (Except.ok fo, s1) =>
    rw [bindF_eq_ok hls]
    have hkrest : EmitsOnly (bindF (forF add_output fo.1)
        (fun _ => bindF (fusionExecute (args.filter Value.isTensor) fo.1.length)
          (fun res => pureF (treeUnflatten (Value.misc 0) res fo.2)))) NonRegEv := by
      apply bindF_emits
        (emits_mono (forF_emits add_output_emits fo.1) outputEv_le_nonRegEv)
      intro u
      apply bindF_emits (emits_mono
        (fusionExecute_emits (args.filter Value.isTensor) fo.1.length)
        (fun e he => by rw [he]; trivial))
      intro res
      exact pureF_emits _ _
    obtain ⟨δ2, hδ2, hp2⟩ := hkrest s1
    have hs1 : s1.trace = s.trace ++ regDelta nvD s.nextHandle args ++
        regDelta nvD (s.nextHandle + (args.filter Value.isTensor).length)
          (kwargs.map Prod.snd) ++ δ1 := by
      rw [hls] at hδ1; exact hδ1
    refine ⟨δ1 ++ δ2, ?_, ?_⟩
    · rw [hδ2, hs1]
      simp [List.append_assoc]
    · intro e he
      rcases List.mem_append.mp he with h | h
      · exact hp1 e h
      · exact hp2 e h

theorem outputEv_le_nonExecEv : ∀ e, OutputEv e → NonExecEv e :=
  fun e he => defEv_le_nonExecEv e (outputEv_le_defEv e he)

theorem nvfuserPath_exec_bufs (nvD : Nat → Nat) (g : Graph) (args : List Value)
    (kwargs : Dict Value) (s : FState) (bufs : List Value)
    (h : FEvent.backendExec bufs ∈ ((nvfuserPath nvD g args kwargs s).2).trace) :
    FEvent.backendExec bufs ∈ s.trace ∨ bufs = args.filter Value.isTensor := by
  unfold nvfuserPath at h
  match hls : lowerStage nvD g args kwargs s with
  | (Except.error e1, s1) =>
    rw [bindF_eq_err hls] at h
    left
    exact emits_mem
      (emits_mono (lowerStage_emits nvD g args kwargs) defEv_le_nonExecEv) s
      (by rw [hls]; exact h) (by simp [NonExecEv])
  | (Except.ok fo, s1) =>
    rw [bindF_eq_ok hls] at h
    match hfo : forF add_output fo.1 s1 with
    | (Except.error e2, s2) =>
      rw [bindF_eq_err hfo] at h
      have h1 : FEvent.backendExec bufs ∈ s1.trace :=
        emits_mem (emits_mono (forF_emits add_output_emits fo.1)
          outputEv_le_nonExecEv) s1 (by rw [hfo]; exact h) (by simp [NonExecEv])
      left
      exact emits_mem
        (emits_mono (lowerStage_emits nvD g args kwargs) defEv_le_nonExecEv) s
        (by rw [hls]; exact h1) (by simp [NonExecEv])
    | (Except.ok u, s2) =>
      rw [bindF_eq_ok hfo] at h
      rw [bindF_eq_ok (fusionExecute_eval (args.filter Value.isTensor) fo.1.length s2)]
        at h
      simp only [pureF] at h
      rcases List.mem_append.mp h with h1 | h2
      · have h3 : FEvent.backendExec bufs ∈ s1.trace :=
          emits_mem (emits_mono (forF_emits add_output_emits fo.1)
            outputEv_le_nonExecEv) s1 (by rw [hfo]; exact h1) (by simp [NonExecEv])
        left
        exact emits_mem
          (emits_mono (lowerStage_emits nvD g args kwargs) defEv_le_nonExecEv) s
          (by rw [hls]; exact h3) (by simp [NonExecEv])
      · right
        rcases List.mem_cons.mp h2 with he | he
        · exact FEvent.backendExec.inj he
        · simp at he

/-- C4: on the fusion path, the tensors registered via
`define_tensor`/`add_input` are exactly the tensor-valued call arguments
(positional then keyword, in order) — a scalar argument is never
registered as a backend input — and whenever a lowered call receives a
scalar among its arguments, that scalar is translated to a backend
constant via `define_constant` during that call. -/
theorem c4_scalar_constants (nvD : Nat → Nat) (g : Graph) (args : List Value)
    (kwargs : Dict Value) :
    ((runNvfuser nvD g args kwargs).2.filterMap defTensorOf =
      (args ++ dictValues kwargs).filterMap (descOf nvD)) ∧
    (((runNvfuser nvD g args kwargs).2.filter isAddInputEv).length =
      ((args ++ dictValues kwargs).filter Value.isTensor).length) ∧
    (∀ (t : OpDef) (vs : List NvVal) (s : FState) (x : Int),
      NvVal.val (Value.scalar x) ∈ vs →
      FEvent.defineConstant x ∈ ((callFunction t vs s).2).trace) := by
  obtain ⟨δ, hδ, hp⟩ := nvfuserPath_trace nvD g args kwargs ⟨0, [FEvent.enterScope]⟩
  have htr : (runNvfuser nvD g args kwargs).2 =
      ([FEvent.enterScope] ++ regDelta nvD 0 args ++
        regDelta nvD (0 + (args.filter Value.isTensor).length) (kwargs.map Prod.snd) ++
        δ) ++ [FEvent.exitScope] := by
    rw [runNvfuser_trace, hδ]
  refine ⟨?_, ?_, ?_⟩
  · rw [htr]
    simp only [List.filterMap_append]
    rw [regDelta_filterMap_def nvD args 0,
      regDelta_filterMap_def nvD (kwargs.map Prod.snd) _,
      filterMap_all_none defTensorOf δ (fun e he => nonRegEv_defTensorOf (hp e he))]
    simp [defTensorOf, dictValues]
  · rw [htr]
    simp only [List.filter_append, List.length_append]
    rw [regDelta_filter_addInput nvD args 0,
      regDelta_filter_addInput nvD (kwargs.map Prod.snd) _,
      filter_all_false isAddInputEv δ (fun e he => nonRegEv_addInput (hp e he))]
    simp [isAddInputEv, dictValues]
  · intro t vs s x hmem
    by_cases h : t.implNv
    · rw [callFunction_ok t vs s h]
      simp only [List.mem_append]
      exact Or.inr (Or.inl (mem_constDelta vs s.nextHandle hmem))
    · rw [callFunction_err t vs s (by simpa using h)]
      simp only [List.mem_append]
      exact Or.inr (mem_constDelta vs s.nextHandle hmem)

/-- C4 witness: running the traced `g(a, c=2.0)` graph registers exactly
one input (the tensor) while the scalar `2.0` becomes a fusion constant
inside the lowered multiplication. -/
theorem c4_scalar_constants_witness :
    (((runNvfuser (fun d => d) mulGraph [Value.tensor tenA, Value.scalar 2]
        []).2.filter isAddInputEv).length = 1) ∧
    FEvent.defineConstant 2 ∈
      ((callFunction mulOp [NvVal.tHandle 0, NvVal.val (Value.scalar 2)]
        ⟨1, []⟩).2).trace := by
  have h := c4_scalar_constants (fun d => d) mulGraph
    [Value.tensor tenA, Value.scalar 2] []
  exact ⟨h.2.1.trans (by decide),
    h.2.2 mulOp [NvVal.tHandle 0, NvVal.val (Value.scalar 2)] ⟨1, []⟩ 2 (by decide)⟩

/-- C1, counterexample: a tensor passed by keyword is registered as a
backend input (its descriptor is defined and added), yet the backend's
execute call is supplied only the positional tensors — the registered
keyword tensor is omitted from the runtime buffers. -/
theorem c1_counterexample :
    ((runNvfuser (fun d => d) fwdGraph [Value.tensor tenA]
        [("k", Value.tensor tenB)]).2.filterMap defTensorOf =
      [([2], [1], 0), ([3], [1], 7)]) ∧
    ((runNvfuser (fun d => d) fwdGraph [Value.tensor tenA]
        [("k", Value.tensor tenB)]).2.filterMap execBufsOf =
      [[Value.tensor tenA]]) ∧
    (([Value.tensor tenA] ++ dictValues [("k", Value.tensor tenB)]).filter
      Value.isTensor = [Value.tensor tenA, Value.tensor tenB]) ∧
    ([Value.tensor tenA] ≠ [Value.tensor tenA, Value.tensor tenB]) := by
  decide

/-- C1 (amended): when the fusion executor runs a graph whose keyword
arguments contain no tensors, every tensor among the positional arguments
is registered as a backend input carrying its shape, stride and translated
dtype, in order, and every backend execute call is supplied exactly those
tensor arguments in that same order; a tensor passed by keyword would be
registered as an input but omitted from the runtime buffers (see the
counterexample). -/
theorem c1_positional_tensors (nvD : Nat → Nat) (g : Graph) (args : List Value)
    (kwargs : Dict Value)
    (hkw : ∀ p ∈ kwargs, Value.isTensor (Prod.snd p) = false) :
    ((runNvfuser nvD g args kwargs).2.filterMap defTensorOf =
      args.filterMap (descOf nvD)) ∧
    (((runNvfuser nvD g args kwargs).2.filter isAddInputEv).length =
      (args.filter Value.isTensor).length) ∧
    (∀ bufs, FEvent.backendExec bufs ∈ (runNvfuser nvD g args kwargs).2 →
      bufs = args.filter Value.isTensor) := by
  have hkv : ∀ v ∈ kwargs.map Prod.snd, Value.isTensor v = false := by
    intro v hv
    obtain ⟨p, hp2, hpe⟩ := List.mem_map.mp hv
    rw [← hpe]
    exact hkw p hp2
  obtain ⟨δ, hδ, hp⟩ := nvfuserPath_trace nvD g args kwargs ⟨0, [FEvent.enterScope]⟩
  have hreg0 : regDelta nvD (0 + (args.filter Value.isTensor).length)
      (kwargs.map Prod.snd) = [] :=
    regDelta_nontensor nvD (kwargs.map Prod.snd) _ hkv
  have htr : (runNvfuser nvD g args kwargs).2 =
      ([FEvent.enterScope] ++ regDelta nvD 0 args ++ [] ++ δ) ++
        [FEvent.exitScope] := by
    rw [runNvfuser_trace, hδ, hreg0]
  refine ⟨?_, ?_, ?_⟩
  · rw [htr]
    simp only [List.filterMap_append]
    rw [regDelta_filterMap_def nvD args 0,
      filterMap_all_none defTensorOf δ (fun e he => nonRegEv_defTensorOf (hp e he))]
    simp [defTensorOf]
  · rw [htr]
    simp only [List.filter_append, List.length_append]
    rw [regDelta_filter_addInput nvD args 0,
      filter_all_false isAddInputEv δ (fun e he => nonRegEv_addInput (hp e he))]
    simp [isAddInputEv]
  · intro bufs hmem
    rw [runNvfuser_trace] at hmem
    rcases List.mem_append.mp hmem with h1 | h2
    · rcases nvfuserPath_exec_bufs nvD g args kwargs ⟨0, [FEvent.enterScope]⟩ bufs h1
        with h | h
      · rcases List.mem_cons.mp h with he | he
        · exact FEvent.noConfusion he
        · simp at he
      · exact h
    · simp at h2

/-- C1 witness: the traced `g(a, 2.0)` call registers the tensor's
descriptor and supplies exactly the positional tensor to the backend. -/
theorem c1_positional_tensors_witness :
    ((runNvfuser (fun d => d) mulGraph [Value.tensor tenA, Value.scalar 2]
        []).2.filterMap defTensorOf = [([2], [1], 0)]) ∧
    [Value.tensor tenA] =
      ([Value.tensor tenA, Value.scalar 2].filter Value.isTensor) := by
  have h := c1_positional_tensors (fun d => d) mulGraph
    [Value.tensor tenA, Value.scalar 2] [] (by simp)
  exact ⟨h.1.trans (by decide), h.2.2 [Value.tensor tenA] (by decide)⟩

end TorchPrimsExecutor
